import Mathlib

/-!
# Verification of the configscanning repository

Shallow embedding of the core logic of the `configscanning` Python package:

* `AI4DTERepo.changed_files`, `AI4DTERepo.update`, `AI4DTERepo.create_tag` /
  `delete_tag` (src/configscanning/githubrepo.py);
* the per-branch body of `config_scan` (src/configscanning/git_change_scanner.py,
  with the `repoupdater.py` variant of the per-file parser embedded alongside);
* the tree reconciliation `main` together with `get_repo_contents`,
  `get_s3_contents`, `match_file`, `update_file`, `delete_file`
  (src/configscanning/comparefiles.py);
* the roster reconciliation `transcribe` (src/configscanning/repolisttranscriber.py).

Trees, working directories and S3 buckets are modelled as association lists
with distinct keys; commits are identified by natural-number hashes; Python
exceptions are modelled with `Except`/`Bool` error flags.
-/

namespace ConfigScanning

abbrev FPath := String
abbrev Content := String
abbrev Hash := Nat

/-- A git tree / working directory: relative file path ↦ file content. -/
abbrev Tree := List (FPath × Content)

/-- Python `str.endswith` (suffix test, stated on the character lists so that
it evaluates inside the kernel). -/
def strEndsWith (s suf : String) : Bool := suf.data.isSuffixOf s.data

/-- Python `str.startswith`. -/
def strStartsWith (s pre : String) : Bool := pre.data.isPrefixOf s.data

/-! ## `AI4DTERepo.changed_files` (githubrepo.py:286-303)

`changed_files(since, until, only_matching)`:
if `since is None` the deltas come from `revparse_single(until).peel(Tree)
.diff_to_tree()`, i.e. a diff of the tree at `until` against the empty tree,
which lists every path in that tree; otherwise from `repo.diff(since, until)`,
a tree-level diff.  For every delta — including deletions — libgit2 populates
`delta.new_file.path` (for a deletion it is the old path), so the result set
contains the paths of added, modified and deleted files. -/

/-- Paths at which two trees differ (tree-level diff: a path appears iff its
content-or-absence differs between the two trees). -/
def diffPaths (ts tu : Tree) : List FPath :=
  ((ts.map Prod.fst) ++ (tu.map Prod.fst)).eraseDups.filter
    (fun p => decide (ts.lookup p ≠ tu.lookup p))

/-- `changed_files` on resolved trees: `none` for `since = None`. -/
def changedFiles (since : Option Tree) (untilTree : Tree)
    (only_matching : FPath → Bool) : List FPath :=
  match since with
  | none => (untilTree.map Prod.fst).filter only_matching
  | some ts => (diffPaths ts untilTree).filter only_matching

/-! ## `AI4DTERepo.__init__` / `AI4DTERepo.update` (githubrepo.py:36-96, 176-280)

`__init__` stores the requested branch set, after the rewrite on lines 60-61:
`if branches_to_fetch == {"main"}: branches_to_fetch = {None}`.  The set may
therefore contain the Python value `None`, so branch-set elements are modelled
as `Option String`.

`update()` intersects the stored set with the branch names that exist on the
remote (line 192), builds one refspec string per remaining element (lines
146-153, 193), and for a fresh clone registers the remote with
`remotes.create("origin", url, fetch=refspecs[0])` (line 231) — a Python
`IndexError` when the refspec list is empty — before fetching and
creating/fast-forwarding one local branch per tracked branch (lines 262-278).
The remote repository is modelled as its branch-name ↦ tip-hash map. -/

/-- Python set equality of two (duplicate-free) string lists. -/
def listSetEq (a b : List String) : Bool :=
  a.all (fun x => b.contains x) && b.all (fun x => a.contains x)

/-- githubrepo.py:60-61 — the branch set stored by `__init__`:
`{"main"}` is replaced by `{None}`. -/
def initBranchesToFetch (branches_to_fetch : List String) : List (Option String) :=
  if listSetEq branches_to_fetch ["main"] then [none]
  else branches_to_fetch.map some

/-- githubrepo.py:146-153 — `_refspecs_to_pull`, one f-string per element
(Python renders the value `None` as the text "None"). -/
def refspecFor : Option String → String
  | some b => "refs/heads/" ++ b ++ ":refs/remotes/origin/" ++ b
  | none => "refs/heads/None:refs/remotes/origin/None"

inductive UpdateError where
  /-- `refspecs[0]` on an empty list (githubrepo.py:231). -/
  | indexError
deriving Repr, DecidableEq

/-- githubrepo.py:262-278 — per-branch loop of `update()`: create the local
branch at the fetched remote tip if it does not exist, otherwise check it out
and force its ref to the remote tip.  After the intersection on line 192 every
element of `tracked` is `some` of an existing remote branch name, so the
`none` / unknown-branch fallthroughs are unreachable. -/
def updateBranchLoop (remoteBranches : List (String × Hash))
    (tracked : List (Option String)) (localBranches : List (String × Hash)) :
    List (String × Hash) :=
  tracked.foldl
    (fun ls ob =>
      match ob with
      | none => ls
      | some b =>
        match remoteBranches.lookup b with
        | none => ls
        | some tip =>
          if (ls.lookup b).isSome then
            ls.map (fun e => if e.1 = b then (b, tip) else e)
          else ls ++ [(b, tip)])
    localBranches

/-- `AI4DTERepo(...); repo.update()` on an empty local mirror directory:
returns the local branches of the fresh clone, or the exception `update()`
raises. -/
def updateFreshClone (branches_to_fetch : List String)
    (remoteBranches : List (String × Hash)) :
    Except UpdateError (List (String × Hash)) :=
  let tracked₀ := initBranchesToFetch branches_to_fetch
  let available := remoteBranches.map Prod.fst
  -- line 192: self.branches_to_fetch = self.branches_to_fetch & available_branches
  let tracked := tracked₀.filter (fun ob => (available.map some).contains ob)
  let refspecs := tracked.map refspecFor
  match refspecs with
  | [] => .error .indexError          -- line 231: refspecs[0] raises IndexError
  | _ :: _ => .ok (updateBranchLoop remoteBranches tracked [])

/-! ## `config_scan`, per-branch body (git_change_scanner.py:140-194)

For each `(branch, scanner_objs)` pair the loop: skips missing branches,
checks out and hard-resets the branch (so the working directory equals the
tree at the branch tip), computes `files_to_scan` via `changed_files` with
`since = "_SCANNED_" + branch` when that tag exists and no full scan was
requested, reads and parses each file (`FileNotFoundError` → `data = None`;
`.yaml`/`.yml` → `yaml.load`, whose parse errors are NOT caught; `.json` →
`data = None`; anything else → raw text), dispatches `scan_file` to every
scanner, calls `finish()` on every scanner, and only then `create_tag`s the
watermark at HEAD.  Exceptions from parsing, `scan_file` or `finish`
propagate; the model records them as an error flag with the state reached. -/

/-- A Python value handed to `Scanner.scan_file` (`None` is `Option.none`). -/
inductive PyVal where
  | yamlObj (v : String)    -- result of yaml.load
  | jsonObj (v : String)    -- result of json.load (repoupdater.py only)
  | strVal (s : String)     -- raw text from file.read()
deriving Repr, DecidableEq

/-- A scanner plugin: whether `scan_file`/`finish` return normally (`true`)
or raise (`false`). -/
structure ScannerObj where
  scanFileOk : FPath → Option PyVal → Bool
  finishOk : Bool

/-- git_change_scanner.py:135-137 — `scannable_file`. -/
def scannable_file (fname : String) : Bool :=
  strEndsWith fname ".yaml" || strEndsWith fname ".yml" || strEndsWith fname ".json"

/-- git_change_scanner.py:173-184 — compute the `data` value for one file of
the batch (`disk` is the checked-out working directory).  A missing file is
caught (`FileNotFoundError` → `data = None`); a YAML parse failure is an
uncaught exception; a `.json` file is not parsed at all (`data = None`). -/
def computeData (yamlParse : Content → Except Unit PyVal)
    (disk : FPath → Option Content) (fname : FPath) :
    Except Unit (Option PyVal) :=
  match disk fname with
  | none => .ok none
  | some content =>
    if strEndsWith fname ".yaml" || strEndsWith fname ".yml" then
      (yamlParse content).map some
    else if strEndsWith fname ".json" then
      .ok none
    else
      .ok (some (.strVal content))

/-- repoupdater.py:162-169 — the same computation in the `repoupdater`
variant of `config_scan`: no exception handler at all, and `.json` files go
through `json.load`. -/
def computeDataUpdater (yamlParse jsonParse : Content → Except Unit PyVal)
    (disk : FPath → Option Content) (fname : FPath) :
    Except Unit (Option PyVal) :=
  match disk fname with
  | none => .error ()
  | some content =>
    if strEndsWith fname ".yaml" || strEndsWith fname ".yml" then
      (yamlParse content).map some
    else if strEndsWith fname ".json" then
      (jsonParse content).map some
    else
      .ok (some (.strVal content))

/-- One recorded `scan_file` call: (scanner index, path, data). -/
abbrev ScanEvent := Nat × FPath × Option PyVal

/-- git_change_scanner.py:187-188 — `for scanner_obj in scanner_objs:
scanner_obj.scan_file(...)`, from scanner index `i`; stops at the first
scanner that raises. -/
def dispatchFrom (scanners : List ScannerObj) (i : Nat) (fname : FPath)
    (data : Option PyVal) : List ScanEvent × Bool :=
  match scanners with
  | [] => ([], true)
  | sc :: rest =>
    if sc.scanFileOk fname data then
      let r := dispatchFrom rest (i + 1) fname data
      ((i, fname, data) :: r.1, r.2)
    else ([(i, fname, data)], false)

/-- git_change_scanner.py:173-188 — the `for fname in files_to_scan` loop;
stops at the first uncaught exception (parse failure or raising scanner). -/
def processFiles (yamlParse : Content → Except Unit PyVal)
    (disk : FPath → Option Content) (scanners : List ScannerObj) :
    List FPath → List ScanEvent × Bool
  | [] => ([], true)
  | f :: fs =>
    match computeData yamlParse disk f with
    | .error _ => ([], false)
    | .ok data =>
      let d := dispatchFrom scanners 0 f data
      if d.2 then
        let r := processFiles yamlParse disk scanners fs
        (d.1 ++ r.1, r.2)
      else (d.1, false)

/-- Repository state visible to `config_scan`: commit hash ↦ tree, local
branch refs, tag refs, and the HEAD target. -/
structure ScanRepoState where
  commits : List (Hash × Tree)
  branches : List (String × Hash)
  tags : List (String × Hash)
  headTarget : Hash
deriving Repr, DecidableEq

def lookupTree (s : ScanRepoState) (h : Hash) : Tree :=
  (s.commits.lookup h).getD []

/-- git_change_scanner.py:161 — `last_scan_tag = f"_SCANNED_{branch}"`. -/
def scanTagName (branch : String) : String := "_SCANNED_" ++ branch

/-- githubrepo.py:311-327 — `create_tag` after `delete_tag`: the tag ends up
pointing at the given commit (the caller passes HEAD's target). -/
def setTag (tags : List (String × Hash)) (name : String) (h : Hash) :
    List (String × Hash) :=
  (name, h) :: tags.filter (fun t => t.1 ≠ name)

/-- git_change_scanner.py:160-170 — the `files_to_scan` computation for one
branch: `changed_files(since, "HEAD", scan_filter)` where `since` is the
watermark tag when it exists and `full_scan` is off, else `None`. -/
def filesToScan (s : ScanRepoState) (branch : String)
    (scan_filter : FPath → Bool) (full_scan : Bool) : List FPath :=
  match s.branches.lookup branch with
  | none => []
  | some tip =>
    let tagTarget := s.tags.lookup (scanTagName branch)
    let since := if !full_scan && tagTarget.isSome then tagTarget else none
    changedFiles (since.map (lookupTree s)) (lookupTree s tip) scan_filter

/-- Result of scanning one branch: repository state at termination, the trace
of `scan_file` calls, and whether an exception propagated. -/
structure BranchScanResult where
  state : ScanRepoState
  trace : List ScanEvent
  error : Bool
deriving Repr, DecidableEq

/-- git_change_scanner.py:151-194 — the body of `config_scan`'s branch loop
for one `(branch, scanner_objs)` entry.  `checkout_and_reset` makes the
working directory the tree at the branch tip and moves HEAD there; the
watermark tag is written only after every file has been dispatched and every
scanner's `finish()` has returned. -/
def scanBranch (yamlParse : Content → Except Unit PyVal) (s : ScanRepoState)
    (branch : String) (scanners : List ScannerObj)
    (scan_filter : FPath → Bool) (full_scan : Bool) : BranchScanResult :=
  match s.branches.lookup branch with
  | none => ⟨s, [], false⟩                      -- missing branch: `continue`
  | some tip =>
    let s₁ : ScanRepoState := { s with headTarget := tip }   -- checkout_and_reset
    -- checkout_and_reset only moves HEAD and the working tree; `files` and the
    -- on-disk contents are read from the unchanged branches/tags/commits.
    let files := filesToScan s branch scan_filter full_scan
    let disk := fun p => (lookupTree s tip).lookup p
    let pr := processFiles yamlParse disk scanners files
    if pr.2 then
      if scanners.all (fun sc => sc.finishOk) then
        ⟨{ s₁ with tags := setTag s₁.tags (scanTagName branch) s₁.headTarget },
          pr.1, false⟩
      else ⟨s₁, pr.1, true⟩                     -- finish() raised
    else ⟨s₁, pr.1, true⟩                       -- read/parse/scan_file raised

/-! ## Tree reconciliation (comparefiles.py)

The local clone below the scanned root (`folder + subdirs_to_ignore`, the
offset composed in `main`, lines 99-102/119) is modelled as an association
list from relative path to entry (regular file with content, or directory) —
exactly what `glob.glob(f"{folder}/**", recursive=True)` enumerates after the
root prefix is stripped (the root itself, stripped to `""`, is excluded; glob
normalises the doubled separator and yields directory paths without a
trailing separator, so `path.rstrip("/")` in `match_file`/`update_file` is
the identity on these paths).  The S3 bucket is an association list from
object key to content; `difflib.unified_diff` over two content strings is
empty iff the strings are equal, so the `is_outdated` test is content
inequality. -/

/-- A local filesystem entry below the scanned root. -/
inductive Entry where
  | file (c : Content)
  | dir
deriving Repr, DecidableEq

abbrev LocalTree := List (FPath × Entry)
abbrev S3Objects := List (String × Content)

def isLocalFile (lt : LocalTree) (p : FPath) : Bool :=
  match lt.lookup p with
  | some (.file _) => true
  | _ => false

def isLocalDir (lt : LocalTree) (p : FPath) : Bool :=
  match lt.lookup p with
  | some .dir => true
  | _ => false

/-- `open(...).read()` on a local path known to be a regular file. -/
def localContent (lt : LocalTree) (p : FPath) : Content :=
  match lt.lookup p with
  | some (.file c) => c
  | _ => ""

/-- comparefiles.py:27-34 — `get_repo_contents`: the relative paths of the
entries under the root whose name ends in ".json". -/
def get_repo_contents (lt : LocalTree) : List FPath :=
  (lt.map Prod.fst).filter (fun f => strEndsWith f ".json")

/-- Number of occurrences of "/" in a string (Python `str.count("/")`). -/
def countSlash (s : String) : Nat := s.data.count '/'

/-- comparefiles.py:37-48 — `get_s3_contents`: objects whose key starts with
`s3_folder + "/"`; when `s3_folder` contains no "/" (i.e. top level only),
additionally restricted to keys containing exactly one "/". -/
def get_s3_contents (s3_folder : String) (store : S3Objects) : S3Objects :=
  let folder_contents := store.filter (fun f => strStartsWith f.1 (s3_folder ++ "/"))
  if countSlash s3_folder = 0 then
    folder_contents.filter (fun f => countSlash f.1 = 1)
  else folder_contents

/-- The object key a local path maps to: `f"{subdir}/{path}"` where `subdir`
is `s3_folder` when non-empty and `""` otherwise — in both cases
`s3_folder ++ "/" ++ path` (comparefiles.py:53-54, 76-78). -/
def s3Key (s3_folder : String) (p : FPath) : String := s3_folder ++ "/" ++ p

/-- comparefiles.py:51-62 — `match_file`: when the local path exists and is
not a directory, the first object of the scoped listing whose key is
`s3_folder/path`; `None` otherwise. -/
def match_file (lt : LocalTree) (s3_contents : S3Objects) (s3_folder : String)
    (p : FPath) : Option (String × Content) :=
  if isLocalFile lt p then
    s3_contents.find? (fun f => f.1 = s3Key s3_folder p)
  else none

/-- Loop state of `main`'s reconciliation pass (comparefiles.py:104-155):
the remaining scoped listing, the bucket, and the reported key lists. -/
structure SyncState where
  s3C : S3Objects
  store : S3Objects
  addedFiles : List String
  updatedFiles : List String
deriving Repr, DecidableEq

/-- `upload_file` to a key: S3 put replaces the object or creates it. -/
def storePut (store : S3Objects) (k : String) (c : Content) : S3Objects :=
  if (store.lookup k).isSome then
    store.map (fun e => if e.1 = k then (k, c) else e)
  else store ++ [(k, c)]

/-- comparefiles.py:121-151 — one iteration of `for path in repo_contents`:
match, content comparison (`difflib.unified_diff` empty iff equal),
`s3_contents.remove`, and the add/update upload with its report. -/
def processPath (lt : LocalTree) (s3_folder : String) (st : SyncState)
    (p : FPath) : SyncState :=
  match match_file lt st.s3C s3_folder p with
  | some f =>
    let st' := { st with s3C := st.s3C.erase f }
    if localContent lt p ≠ f.2 then
      { st' with
        store := storePut st'.store (s3Key s3_folder p) (localContent lt p),
        updatedFiles := st'.updatedFiles ++ [s3Key s3_folder p] }
    else st'
  | none =>
    if !isLocalDir lt p then
      { st with
        store := storePut st.store (s3Key s3_folder p) (localContent lt p),
        addedFiles := st.addedFiles ++ [s3Key s3_folder p] }
    else st

def processAll (lt : LocalTree) (s3_folder : String) :
    SyncState → List FPath → SyncState
  | st, [] => st
  | st, p :: ps => processAll lt s3_folder (processPath lt s3_folder st p) ps

/-- Result of `comparefiles.main`: the bucket after the run and the three
reported key lists. -/
structure SyncResult where
  store : S3Objects
  added_keys : List String
  updated_keys : List String
  deleted_keys : List String
deriving Repr, DecidableEq

/-- comparefiles.py:89-162 — `main`: enumerate both sides, reconcile each
local `.json` path, then delete every object still in the scoped listing. -/
def compareMain (lt : LocalTree) (store : S3Objects) (s3_folder : String) :
    SyncResult :=
  let s3_contents := get_s3_contents s3_folder store
  let repo_contents := get_repo_contents lt
  let st := processAll lt s3_folder ⟨s3_contents, store, [], []⟩ repo_contents
  let deleted := st.s3C.map Prod.fst
  { store := st.store.filter (fun e => !deleted.contains e.1),
    added_keys := st.addedFiles,
    updated_keys := st.updatedFiles,
    deleted_keys := deleted }

/-! ## Roster reconciliation (repolisttranscriber.py:130-245)

`transcribe` fetches the live repository list from the remote host
(name ↦ `pushed_at` timestamp) and the cluster's Repo records, keeps only
records whose `ai-pipeline.org/repo-source` value starts with
"github:" (lines 149-153), and then: deletes `existing - live`, creates
`live - existing` (a fresh record whose status is then replaced so that
`status.remotePosition.lastModified` is the remote timestamp, lines
164-206), and for `live ∩ existing` patches exactly the single field
`/status/remotePosition/lastModified` — and only when the remote value
differs from the stored one (lines 210-245). -/

/-- A cluster Repo record: name, the `ai-pipeline.org/repo-source` value
(defaulting to `""` when absent), and `status.remotePosition.lastModified`
(`none` when any level of the status is absent). -/
structure K8sRec where
  name : String
  repoSource : String
  lastModified : Option Int
deriving Repr, DecidableEq

/-- A mutation issued against the cluster record store.  `patchLastModified`
is, in the source, a single JSON-patch `replace` of
`/status/remotePosition/lastModified` — no other field is touched. -/
inductive RosterOp where
  | delete (name : String)
  | create (name : String) (lastModified : Int)
  | patchLastModified (name : String) (value : Int)
deriving Repr, DecidableEq

def rosterOpName : RosterOp → String
  | .delete n => n
  | .create n _ => n
  | .patchLastModified n _ => n

/-- repolisttranscriber.py:210-245 — the body of the `repos_remaining` loop
for one name: compare `int(gh_repo.pushed_at.timestamp())` with the record's
`status.remotePosition.lastModified` and, when different, emit the
single-field JSON patch. -/
def patchOpFor (ghRepos : List (String × Int)) (k8sFiltered : List K8sRec)
    (n : String) : Option RosterOp :=
  match ghRepos.lookup n, k8sFiltered.find? (fun r => r.name = n) with
  | some gh_lastmod, some rec₀ =>
    if rec₀.lastModified ≠ some gh_lastmod then
      some (.patchLastModified n gh_lastmod)
    else none
  | _, _ => none

/-- repolisttranscriber.py:130-245 — the mutations `transcribe` performs,
given the remote host's repositories (name ↦ pushed-at timestamp) and the
cluster's records. -/
def transcribeOps (ghRepos : List (String × Int)) (k8sRepos : List K8sRec) :
    List RosterOp :=
  let k8sFiltered := k8sRepos.filter (fun r => strStartsWith r.repoSource "github:")
  let ghNames := ghRepos.map Prod.fst
  let k8sNames := k8sFiltered.map (fun r => r.name)
  let repos_removed := k8sNames.filter (fun n => !ghNames.contains n)
  let repos_added := ghNames.filter (fun n => !k8sNames.contains n)
  let repos_remaining := ghNames.filter (fun n => k8sNames.contains n)
  repos_removed.map .delete
    ++ repos_added.filterMap
        (fun n => (ghRepos.lookup n).map (fun t => .create n t))
    ++ repos_remaining.filterMap (patchOpFor ghRepos k8sFiltered)

/-! # Theorems -/

/-! ## Association-list helpers -/

theorem lookup_cons_self {β : Type} {k : String} {v : β} {t : List (String × β)} :
    ((k, v) :: t).lookup k = some v := by
  simp [List.lookup]

theorem lookup_cons_ne {β : Type} {k a : String} {v : β} {t : List (String × β)}
    (h : k ≠ a) : ((a, v) :: t).lookup k = t.lookup k := by
  simp [List.lookup, beq_eq_false_iff_ne.mpr h]

theorem lookup_eq_some_mem {β : Type} {l : List (String × β)} {k : String} {v : β}
    (h : l.lookup k = some v) : (k, v) ∈ l := by
  induction l with
  | nil => simp [List.lookup] at h
  | cons e t ih =>
    obtain ⟨a, b⟩ := e
    by_cases hk : k = a
    · subst hk
      rw [lookup_cons_self] at h
      cases h
      exact List.mem_cons_self _ _
    · rw [lookup_cons_ne hk] at h
      exact List.mem_cons_of_mem _ (ih h)

theorem mem_keys_of_lookup_isSome {β : Type} {l : List (String × β)} {k : String}
    (h : (l.lookup k).isSome) : k ∈ l.map Prod.fst := by
  induction l with
  | nil => simp [List.lookup] at h
  | cons e t ih =>
    obtain ⟨a, b⟩ := e
    by_cases hk : k = a
    · simp [hk]
    · rw [lookup_cons_ne hk] at h
      exact List.mem_cons_of_mem _ (ih h)

theorem lookup_eq_some_of_mem_nodup {β : Type} {l : List (String × β)} {k : String} {v : β}
    (hnd : (l.map Prod.fst).Nodup) (hm : (k, v) ∈ l) : l.lookup k = some v := by
  induction l with
  | nil => simp at hm
  | cons e t ih =>
    obtain ⟨a, b⟩ := e
    simp only [List.map_cons, List.nodup_cons] at hnd
    rcases List.mem_cons.mp hm with h | h
    · cases h
      exact lookup_cons_self
    · have hne : k ≠ a := by
        intro hk
        exact hnd.1 (hk ▸ List.mem_map.mpr ⟨(k, v), h, rfl⟩)
      rw [lookup_cons_ne hne]
      exact ih hnd.2 h

theorem lookup_isSome_of_mem_keys {β : Type} {l : List (String × β)} {k : String}
    (h : k ∈ l.map Prod.fst) : (l.lookup k).isSome := by
  induction l with
  | nil => simp at h
  | cons e t ih =>
    obtain ⟨a, b⟩ := e
    by_cases hk : k = a
    · subst hk
      rw [lookup_cons_self]
      rfl
    · rw [lookup_cons_ne hk]
      simp only [List.map_cons, List.mem_cons] at h
      rcases h with h | h
      · exact absurd h hk
      · exact ih h

theorem diffPaths_self (t : Tree) : diffPaths t t = [] := by
  simp [diffPaths]

/-! ## Claim C1 -/

/-- C1 (refuted; the code contradicts its own docstring and tests): the spec
scenario says that a fresh `update()` with tracked branch set `{"main"}`
produces a local `main` branch at the remote's `main` tip (and no local
`dev`).  In the code, `__init__` replaces the set `{"main"}` by `{None}`
(githubrepo.py:60-61); `update()` then intersects it with the remote's
branch names, obtaining the empty set, so the refspec list is empty and
`refspecs[0]` raises `IndexError` (githubrepo.py:231) before any branch is
fetched or created: no local `main` branch ever exists. -/
theorem C1_fresh_clone_with_main_raises :
    initBranchesToFetch ["main"] = [none] ∧
    updateFreshClone ["main"] [("main", 7), ("dev", 9)] =
      Except.error UpdateError.indexError := by
  exact ⟨rfl, rfl⟩

/-! ## Claim C4 -/

/-- C4 counterexample: with `since` tree `{a.yaml ↦ "x"}` and `until` tree `∅`
(the file was deleted between the two commits), the incremental result
contains `"a.yaml"` but the full enumeration at `until` is empty: the claimed
subset relation fails, because `changed_files` also reports deleted paths
(libgit2 populates `delta.new_file.path` for deletions — the behaviour
`config_scan` relies on for deletion visibility). -/
theorem C4_counterexample :
    "a.yaml" ∈ changedFiles (some [("a.yaml", "x")]) []
        (fun p => strEndsWith p ".yaml") ∧
    "a.yaml" ∉ changedFiles none [] (fun p => strEndsWith p ".yaml") := by
  constructor
  · decide
  · decide

/-- C4, amended: for every pair of trees along a branch's history and every
filter, every path of `changed_files(since, until, f)` that still exists in
the tree at `until` (i.e. was not deleted between the two commits) is also in
`changed_files(None, until, f)`. -/
theorem C4_amended_incremental_subset_of_full {ts tu : Tree} {f : FPath → Bool}
    {p : FPath} (hmem : p ∈ changedFiles (some ts) tu f)
    (hpresent : (tu.lookup p).isSome) : p ∈ changedFiles none tu f := by
  simp only [changedFiles, diffPaths, List.mem_filter] at hmem ⊢
  exact ⟨mem_keys_of_lookup_isSome hpresent, hmem.2⟩

theorem C4_amended_witness :
    ("b.yaml" ∈ changedFiles (some [("b.yaml", "x")]) [("b.yaml", "z")]
        (fun p => strEndsWith p ".yaml")) ∧
    (([("b.yaml", "z")] : Tree).lookup "b.yaml").isSome ∧
    "b.yaml" ∈ changedFiles none [("b.yaml", "z")] (fun p => strEndsWith p ".yaml") :=
  ⟨by decide, by decide,
    @C4_amended_incremental_subset_of_full [("b.yaml", "x")] [("b.yaml", "z")]
      (fun p => strEndsWith p ".yaml") "b.yaml" (by decide) (by decide)⟩

/-! ## Claim C3 -/

/-- C3 (confirmed): if scanning a branch fails partway — an uncaught
exception while reading/parsing a file, or from any scanner's `scan_file` or
`finish` — then `create_tag` (git_change_scanner.py:194) is never reached:
the watermark tag of that branch is neither created nor moved (the whole tag
map is untouched), so the next run's `changed_files` range starts from the
same watermark and re-scans the same or a superset of files. -/
theorem C3_watermark_unchanged_on_failure
    (yp : Content → Except Unit PyVal) (s : ScanRepoState) (branch : String)
    (scanners : List ScannerObj) (filt : FPath → Bool) (full_scan : Bool)
    (herr : (scanBranch yp s branch scanners filt full_scan).error = true) :
    (scanBranch yp s branch scanners filt full_scan).state.tags = s.tags ∧
    (scanBranch yp s branch scanners filt full_scan).state.tags.lookup
        (scanTagName branch) = s.tags.lookup (scanTagName branch) := by
  suffices h : (scanBranch yp s branch scanners filt full_scan).state.tags = s.tags by
    exact ⟨h, by rw [h]⟩
  unfold scanBranch at herr ⊢
  cases hb : s.branches.lookup branch with
  | none =>
    rw [hb] at herr
  | some tip =>
    rw [hb] at herr
    dsimp only at herr ⊢
    split
    · split
      · rename_i h₁ h₂
        simp [h₁, h₂] at herr
      · rfl
    · rfl

theorem C3_watermark_unchanged_on_failure_witness :
    ((scanBranch (fun c => if c = "BROKEN" then .error () else .ok (.yamlObj c))
        ⟨[(6, [("crash.yaml", "BROKEN")])], [("main", 6)], [("_SCANNED_dev", 2)], 0⟩
        "main" [⟨fun _ _ => true, true⟩] scannable_file false).error = true) ∧
    (scanBranch (fun c => if c = "BROKEN" then .error () else .ok (.yamlObj c))
        ⟨[(6, [("crash.yaml", "BROKEN")])], [("main", 6)], [("_SCANNED_dev", 2)], 0⟩
        "main" [⟨fun _ _ => true, true⟩] scannable_file false).state.tags.lookup
      (scanTagName "main") = none :=
  ⟨by decide,
    by
      have h := C3_watermark_unchanged_on_failure
        (fun c => if c = "BROKEN" then .error () else .ok (.yamlObj c))
        ⟨[(6, [("crash.yaml", "BROKEN")])], [("main", 6)], [("_SCANNED_dev", 2)], 0⟩
        "main" [⟨fun _ _ => true, true⟩] scannable_file false (by decide)
      rw [h.2]
      decide⟩

/-! ## Claim C5 -/

/-- C5 (confirmed): after a scan-and-tag cycle on branch `b` completes
without error (so `create_tag` wrote `_SCANNED_b` at the branch tip, which is
also HEAD after `checkout_and_reset`), and with no further commits on `b`, a
subsequent incremental scan of `b` — `changed_files` from the watermark tag
to HEAD, as computed by `config_scan` with `full_scan` off — yields the empty
changed-file set, because it diffs the tip's tree against itself. -/
theorem C5_watermark_roundtrip_empty
    (yp : Content → Except Unit PyVal) (s : ScanRepoState) (branch : String)
    (scanners : List ScannerObj) (filt : FPath → Bool) (full_scan : Bool)
    (tip : Hash) (hb : s.branches.lookup branch = some tip)
    (herr : (scanBranch yp s branch scanners filt full_scan).error = false) :
    filesToScan (scanBranch yp s branch scanners filt full_scan).state branch
      filt false = [] := by
  unfold scanBranch at herr ⊢
  rw [hb] at herr ⊢
  dsimp only at herr ⊢
  split
  · split
    · simp only [filesToScan, setTag, hb, lookup_cons_self, Option.isSome_some,
        Bool.not_false, Bool.and_self, if_true, Option.map_some]
      simp [changedFiles, diffPaths_self]
    · rename_i h₁ h₂
      simp [h₁, h₂] at herr
  · rename_i h₁
    simp [h₁] at herr

/-! ## Claim C2 -/

theorem dispatchFrom_all_ok (scanners : List ScannerObj) (i : Nat) (f : FPath)
    (d : Option PyVal) (hsc : ∀ sc ∈ scanners, sc.scanFileOk f d = true) :
    (dispatchFrom scanners i f d).2 = true ∧
    ∀ j < scanners.length, (i + j, f, d) ∈ (dispatchFrom scanners i f d).1 := by
  induction scanners generalizing i with
  | nil =>
    refine ⟨rfl, ?_⟩
    intro j hj
    simp at hj
  | cons sc rest ih =>
    have hsc0 : sc.scanFileOk f d = true := hsc sc (List.mem_cons_self _ _)
    have hrest := ih (i + 1) (fun s hs => hsc s (List.mem_cons_of_mem _ hs))
    constructor
    · simp [dispatchFrom, hsc0, hrest.1]
    · intro j hj
      cases j with
      | zero =>
        simp [dispatchFrom, hsc0]
      | succ j' =>
        simp only [dispatchFrom, hsc0, if_true]
        have hm := hrest.2 j' (by simpa using hj)
        have heq : i + (j' + 1) = i + 1 + j' := by omega
        rw [heq]
        exact List.mem_cons_of_mem _ hm

theorem processFiles_all_ok (yp : Content → Except Unit PyVal)
    (disk : FPath → Option Content) (scanners : List ScannerObj)
    (files : List FPath)
    (hsc : ∀ sc ∈ scanners, ∀ p d, sc.scanFileOk p d = true)
    (hp : ∀ f ∈ files, ∃ d, computeData yp disk f = Except.ok d) :
    (processFiles yp disk scanners files).2 = true ∧
    ∀ f ∈ files, ∃ d, computeData yp disk f = Except.ok d ∧
      ∀ i < scanners.length, (i, f, d) ∈ (processFiles yp disk scanners files).1 := by
  induction files with
  | nil =>
    refine ⟨rfl, ?_⟩
    intro f hf
    simp at hf
  | cons f fs ih =>
    obtain ⟨d, hd⟩ := hp f (List.mem_cons_self _ _)
    have hdisp := dispatchFrom_all_ok scanners 0 f d (fun sc hs => hsc sc hs f d)
    have ihr := ih (fun g hg => hp g (List.mem_cons_of_mem _ hg))
    have hred : processFiles yp disk scanners (f :: fs) =
        ((dispatchFrom scanners 0 f d).1 ++ (processFiles yp disk scanners fs).1,
          (processFiles yp disk scanners fs).2) := by
      simp only [processFiles, hd, hdisp.1, if_true]
    constructor
    · rw [hred]
      exact ihr.1
    · intro g hg
      rcases List.mem_cons.mp hg with hgf | hgfs
      · subst hgf
        refine ⟨d, hd, ?_⟩
        intro i hi
        rw [hred]
        have := hdisp.2 i hi
        simp only [Nat.zero_add] at this
        exact List.mem_append.mpr (Or.inl this)
      · obtain ⟨d', hd', hmem⟩ := ihr.2 g hgfs
        refine ⟨d', hd', ?_⟩
        intro i hi
        rw [hred]
        exact List.mem_append.mpr (Or.inr (hmem i hi))

/-- C2 counterexample: the `main` batch consists of `bad.yaml`, which exists
on disk (it is in the checked-out tree) but whose content fails to parse
(`yaml.load` raises on it).  `config_scan` catches only `FileNotFoundError`
(git_change_scanner.py:183-184), so the parse exception propagates: the
branch scan aborts with the error, and the file is never passed to the
registered scanner at all — the dispatch trace is empty instead of containing
a null-content dispatch, and the watermark is not written. -/
theorem C2_counterexample :
    scanBranch (fun c => if c = "BAD" then .error () else .ok (.yamlObj c))
        ⟨[(1, [("bad.yaml", "BAD")])], [("main", 1)], [], 0⟩
        "main" [⟨fun _ _ => true, true⟩] scannable_file false
      = ⟨⟨[(1, [("bad.yaml", "BAD")])], [("main", 1)], [], 1⟩, [], true⟩ := by
  decide

/-- C2, amended: the null-content pass-through applies to files that are
*absent from disk* (the `FileNotFoundError` handler), not to present files
that fail to parse.  For every branch scan in which every present `.yaml`/
`.yml` file of the batch parses successfully and no scanner raises: the scan
completes without error, every file of the batch is dispatched to every
registered scanner, and every file of the batch that is missing from disk is
dispatched with null parsed content. -/
theorem C2_amended_missing_file_dispatched_null
    (yp : Content → Except Unit PyVal) (s : ScanRepoState) (branch : String)
    (scanners : List ScannerObj) (filt : FPath → Bool) (full_scan : Bool)
    (tip : Hash) (hb : s.branches.lookup branch = some tip)
    (hsc : ∀ sc ∈ scanners, (∀ p d, sc.scanFileOk p d = true) ∧ sc.finishOk = true)
    (hparse : ∀ f ∈ filesToScan s branch filt full_scan, ∀ c,
        (lookupTree s tip).lookup f = some c →
        (strEndsWith f ".yaml" || strEndsWith f ".yml") = true →
        (yp c).isOk = true) :
    (scanBranch yp s branch scanners filt full_scan).error = false ∧
    ∀ f ∈ filesToScan s branch filt full_scan,
      ((lookupTree s tip).lookup f = none →
        ∀ i < scanners.length,
          (i, f, (none : Option PyVal)) ∈
            (scanBranch yp s branch scanners filt full_scan).trace) ∧
      ∀ i < scanners.length, ∃ d,
        (i, f, d) ∈ (scanBranch yp s branch scanners filt full_scan).trace := by
  have hdata : ∀ f ∈ filesToScan s branch filt full_scan, ∃ d,
      computeData yp (fun p => (lookupTree s tip).lookup p) f = Except.ok d := by
    intro f hf
    cases hdf : (lookupTree s tip).lookup f with
    | none => exact ⟨none, by simp [computeData, hdf]⟩
    | some c =>
      by_cases hy : (strEndsWith f ".yaml" || strEndsWith f ".yml") = true
      · have hok := hparse f hf c hdf hy
        cases hyp : yp c with
        | error e => rw [hyp] at hok; simp [Except.isOk, Except.toBool] at hok
        | ok v => exact ⟨some v, by simp [computeData, hdf, hy, hyp, Except.map]⟩
      · by_cases hj : strEndsWith f ".json" = true
        · exact ⟨none, by simp [computeData, hdf, hy, hj]⟩
        · exact ⟨some (.strVal c), by simp [computeData, hdf, hy, hj]⟩
  have hPF := processFiles_all_ok yp (fun p => (lookupTree s tip).lookup p) scanners
    (filesToScan s branch filt full_scan) (fun sc hs => (hsc sc hs).1) hdata
  have hfin : (scanners.all fun sc => sc.finishOk) = true :=
    List.all_eq_true.mpr (fun sc hs => (hsc sc hs).2)
  have hres : scanBranch yp s branch scanners filt full_scan =
      ⟨⟨s.commits, s.branches, setTag s.tags (scanTagName branch) tip, tip⟩,
        (processFiles yp (fun p => (lookupTree s tip).lookup p) scanners
          (filesToScan s branch filt full_scan)).1, false⟩ := by
    unfold scanBranch
    rw [hb]
    dsimp only
    rw [if_pos hPF.1, if_pos hfin]
  constructor
  · rw [hres]
  · intro f hf
    constructor
    · intro hmiss i hi
      obtain ⟨d, hd, hmem⟩ := hPF.2 f hf
      have hdn : d = none := by
        simp only [computeData, hmiss] at hd
        exact (Except.ok.inj hd).symm
      rw [hres]
      exact hdn ▸ hmem i hi
    · intro i hi
      obtain ⟨d, _, hmem⟩ := hPF.2 f hf
      rw [hres]
      exact ⟨d, hmem i hi⟩

theorem C2_amended_witness :
    ((lookupTree ⟨[(4, [("gone.yaml", "x")]), (5, [])], [("main", 5)],
        [("_SCANNED_main", 4)], 0⟩ 5).lookup "gone.yaml" = none) ∧
    "gone.yaml" ∈ filesToScan ⟨[(4, [("gone.yaml", "x")]), (5, [])], [("main", 5)],
        [("_SCANNED_main", 4)], 0⟩ "main" scannable_file false ∧
    (scanBranch (fun c => .ok (.yamlObj c))
        ⟨[(4, [("gone.yaml", "x")]), (5, [])], [("main", 5)], [("_SCANNED_main", 4)], 0⟩
        "main" [⟨fun _ _ => true, true⟩] scannable_file false).error = false ∧
    (0, "gone.yaml", (none : Option PyVal)) ∈
      (scanBranch (fun c => .ok (.yamlObj c))
        ⟨[(4, [("gone.yaml", "x")]), (5, [])], [("main", 5)], [("_SCANNED_main", 4)], 0⟩
        "main" [⟨fun _ _ => true, true⟩] scannable_file false).trace := by
  have h := C2_amended_missing_file_dispatched_null (fun c => .ok (.yamlObj c))
    ⟨[(4, [("gone.yaml", "x")]), (5, [])], [("main", 5)], [("_SCANNED_main", 4)], 0⟩
    "main" [⟨fun _ _ => true, true⟩] scannable_file false 5 (by decide)
    (by
      intro sc hs
      rw [List.mem_singleton] at hs
      subst hs
      exact ⟨fun _ _ => rfl, rfl⟩)
    (by
      intro f hf c hdf hy
      simp [Except.isOk, Except.toBool])
  refine ⟨by decide, by decide, h.1, ?_⟩
  exact (h.2 "gone.yaml" (by decide)).1 (by decide) 0 (by decide)

/-! ## Claim C9 -/

/-- C9 counterexample: branch `main`'s batch consists of `x.json`, present on
disk with content `"[1]"`.  The scan dispatches it with `data = None`
(git_change_scanner.py:178-179 sets `data = None` for `.json`; the module
never calls a JSON parser), so the scanner does not receive any
structured-data parse of the content — refuting the claimed
extension-determined parsing for `.json` files. -/
theorem C9_counterexample :
    scanBranch (fun c => .ok (.yamlObj c))
        ⟨[(3, [("x.json", "[1]")])], [("main", 3)], [], 0⟩
        "main" [⟨fun _ _ => true, true⟩] scannable_file false
      = ⟨⟨[(3, [("x.json", "[1]")])], [("main", 3)], [("_SCANNED_main", 3)], 3⟩,
          [(0, "x.json", none)], false⟩ := by
  decide

/-- C9, amended: the parsed value passed to scanners is determined by the
extension as follows.  In `git_change_scanner.config_scan`: `.yaml`/`.yml`
files get the YAML parse of their content, `.json` files are dispatched with
null parsed content (no JSON parse is attempted), and any other extension
gets the raw file text.  The `repoupdater.config_scan` variant passes the
JSON parse for `.json` files. -/
theorem C9_amended_extension_parsing
    (yp jp : Content → Except Unit PyVal) (disk : FPath → Option Content)
    (f : FPath) (c : Content) (hd : disk f = some c) :
    ((strEndsWith f ".yaml" || strEndsWith f ".yml") = true →
      computeData yp disk f = (yp c).map some) ∧
    ((strEndsWith f ".yaml" || strEndsWith f ".yml") = false →
      strEndsWith f ".json" = true →
      computeData yp disk f = .ok none ∧
      computeDataUpdater yp jp disk f = (jp c).map some) ∧
    ((strEndsWith f ".yaml" || strEndsWith f ".yml") = false →
      strEndsWith f ".json" = false →
      computeData yp disk f = .ok (some (.strVal c))) := by
  refine ⟨?_, ?_, ?_⟩
  · intro hy
    simp [computeData, hd, hy]
  · intro hy hj
    constructor
    · simp [computeData, hd, hy, hj]
    · simp [computeDataUpdater, hd, hy, hj]
  · intro hy hj
    simp [computeData, hd, hy, hj]

theorem C9_amended_witness :
    computeData (fun c => .ok (.yamlObj c))
        (fun p => ([("x.json", "[1]")] : Tree).lookup p) "x.json" = .ok none ∧
    computeDataUpdater (fun c => .ok (.yamlObj c)) (fun c => .ok (.jsonObj c))
        (fun p => ([("x.json", "[1]")] : Tree).lookup p) "x.json"
      = .ok (some (.jsonObj "[1]")) := by
  have h := C9_amended_extension_parsing (fun c => .ok (.yamlObj c))
    (fun c => .ok (.jsonObj c)) (fun p => ([("x.json", "[1]")] : Tree).lookup p)
    "x.json" "[1]" (by decide)
  have h2 := (h.2.1 (by decide) (by decide))
  exact ⟨h2.1, h2.2⟩

theorem C5_watermark_roundtrip_empty_witness :
    ((scanBranch (fun c => .ok (.yamlObj c))
        ⟨[(2, [("a.yaml", "ok")])], [("main", 2)], [], 0⟩
        "main" [⟨fun _ _ => true, true⟩] scannable_file false).error = false) ∧
    filesToScan (scanBranch (fun c => .ok (.yamlObj c))
        ⟨[(2, [("a.yaml", "ok")])], [("main", 2)], [], 0⟩
        "main" [⟨fun _ _ => true, true⟩] scannable_file false).state "main"
      scannable_file false = [] :=
  ⟨by decide,
    C5_watermark_roundtrip_empty (fun c => .ok (.yamlObj c))
      ⟨[(2, [("a.yaml", "ok")])], [("main", 2)], [], 0⟩
      "main" [⟨fun _ _ => true, true⟩] scannable_file false 2 (by decide) (by decide)⟩

/-! ## Claim C8 -/

theorem find_name_eq_some_of_mem_nodup {l : List K8sRec} {r : K8sRec}
    (hnd : (l.map (fun x => x.name)).Nodup) (hm : r ∈ l) :
    l.find? (fun x => x.name = r.name) = some r := by
  induction l with
  | nil => simp at hm
  | cons h t ih =>
    simp only [List.map_cons, List.nodup_cons] at hnd
    rcases List.mem_cons.mp hm with hh | ht
    · subst hh
      simp [List.find?]
    · have hne : h.name ≠ r.name := by
        intro he
        exact hnd.1 (he ▸ List.mem_map.mpr ⟨r, ht, rfl⟩)
      rw [List.find?, decide_eq_false hne]
      exact ih hnd.2 ht

theorem patchOpFor_eq_some {ghRepos : List (String × Int)}
    {k8sFiltered : List K8sRec} {n : String} {op : RosterOp} :
    patchOpFor ghRepos k8sFiltered n = some op ↔
      ∃ t r, ghRepos.lookup n = some t ∧
        k8sFiltered.find? (fun x => x.name = n) = some r ∧
        r.lastModified ≠ some t ∧ op = .patchLastModified n t := by
  cases hgl : ghRepos.lookup n with
  | none =>
    unfold patchOpFor
    rw [hgl]
    simp
  | some t =>
    cases hfd : k8sFiltered.find? (fun x => x.name = n) with
    | none =>
      unfold patchOpFor
      rw [hgl, hfd]
      simp
    | some r =>
      unfold patchOpFor
      rw [hgl, hfd]
      by_cases hc : r.lastModified = some t
      · simp [hc]
      · simp only [ne_eq, hc, not_false_iff, if_true, Option.some.injEq]
        constructor
        · intro h
          exact ⟨t, r, rfl, rfl, hc, h.symm⟩
        · rintro ⟨t', r', ht', hr', hc', hop⟩
          cases ht'
          cases hr'
          rw [hop]

theorem delete_mem_map_delete_iff {l : List String} {n : String} :
    RosterOp.delete n ∈ l.map RosterOp.delete ↔ n ∈ l := by
  constructor
  · intro h
    obtain ⟨m, hm, he⟩ := List.mem_map.mp h
    injection he with h1
    exact h1 ▸ hm
  · intro h
    exact List.mem_map.mpr ⟨n, h, rfl⟩

theorem mem_create_seg_iff {ghRepos : List (String × Int)} {added : List String}
    {n : String} {t : Int} :
    RosterOp.create n t ∈ added.filterMap
        (fun m => (ghRepos.lookup m).map (fun a => RosterOp.create m a)) ↔
      n ∈ added ∧ ghRepos.lookup n = some t := by
  simp only [List.mem_filterMap, Option.map_eq_some']
  constructor
  · rintro ⟨m, hm, a, hla, hop⟩
    obtain ⟨h1, h2⟩ := RosterOp.create.inj hop
    subst h1
    subst h2
    exact ⟨hm, hla⟩
  · rintro ⟨hm, hla⟩
    exact ⟨n, hm, t, hla, rfl⟩

theorem mem_patch_seg_iff {ghRepos : List (String × Int)}
    {k8sFiltered : List K8sRec} {remaining : List String} {n : String} {t : Int} :
    RosterOp.patchLastModified n t ∈
        remaining.filterMap (patchOpFor ghRepos k8sFiltered) ↔
      n ∈ remaining ∧ ∃ r, ghRepos.lookup n = some t ∧
        k8sFiltered.find? (fun x => x.name = n) = some r ∧
        r.lastModified ≠ some t := by
  simp only [List.mem_filterMap]
  constructor
  · rintro ⟨m, hm, hop⟩
    rw [patchOpFor_eq_some] at hop
    obtain ⟨t', r, hl, hf, hne, heq⟩ := hop
    obtain ⟨h1, h2⟩ := RosterOp.patchLastModified.inj heq
    subst h1
    subst h2
    exact ⟨hm, r, hl, hf, hne⟩
  · rintro ⟨hm, r, hl, hf, hne⟩
    refine ⟨n, hm, ?_⟩
    rw [patchOpFor_eq_some]
    exact ⟨t, r, hl, hf, hne, rfl⟩

/-- C8 (confirmed): writing `existing` for the cluster records carrying the
"github:"-prefixed repo-source marker and `live` for the remote host's
repository list, `transcribe` deletes exactly `existing - live`, creates
exactly `live - existing` (with the remote's last-push timestamp), and for
the intersection issues exactly one single-field patch of
`/status/remotePosition/lastModified` — and only when the stored value
differs from the remote one; a record whose stored timestamp matches gets no
operation at all.  (The roster-sync scenario `{A,B,C}` vs `{B, C-stale, D}`
is the witness theorem.) -/
theorem C8_transcribe_ops_characterization
    (ghRepos : List (String × Int)) (k8sRepos : List K8sRec)
    (hgh : (ghRepos.map Prod.fst).Nodup)
    (hk8s : ((k8sRepos.filter (fun r => strStartsWith r.repoSource "github:")).map
        (fun r => r.name)).Nodup) :
    (∀ n, RosterOp.delete n ∈ transcribeOps ghRepos k8sRepos ↔
      (n ∈ (k8sRepos.filter (fun r => strStartsWith r.repoSource "github:")).map
          (fun r => r.name) ∧
        n ∉ ghRepos.map Prod.fst)) ∧
    (∀ n t, RosterOp.create n t ∈ transcribeOps ghRepos k8sRepos ↔
      (ghRepos.lookup n = some t ∧
        n ∉ (k8sRepos.filter (fun r => strStartsWith r.repoSource "github:")).map
          (fun r => r.name))) ∧
    (∀ n t, RosterOp.patchLastModified n t ∈ transcribeOps ghRepos k8sRepos ↔
      (ghRepos.lookup n = some t ∧
        ∃ r ∈ k8sRepos.filter (fun x => strStartsWith x.repoSource "github:"),
          r.name = n ∧ r.lastModified ≠ some t)) ∧
    (∀ n t, ghRepos.lookup n = some t →
      (∃ r ∈ k8sRepos.filter (fun x => strStartsWith x.repoSource "github:"),
        r.name = n ∧ r.lastModified = some t) →
      ∀ op ∈ transcribeOps ghRepos k8sRepos, rosterOpName op ≠ n) := by
  have hdel : ∀ n, RosterOp.delete n ∈ transcribeOps ghRepos k8sRepos ↔
      (n ∈ (k8sRepos.filter (fun r => strStartsWith r.repoSource "github:")).map
          (fun r => r.name) ∧
        n ∉ ghRepos.map Prod.fst) := by
    intro n
    simp only [transcribeOps, List.mem_append]
    constructor
    · rintro ((hA | hB) | hC)
      · have hmem := delete_mem_map_delete_iff.mp hA
        have h2 := List.mem_filter.mp hmem
        refine ⟨h2.1, ?_⟩
        simpa using h2.2
      · exact absurd hB (by simp [Option.map_eq_some'])
      · exact absurd hC (by simp [patchOpFor_eq_some])
    · rintro ⟨hmk, hng⟩
      refine Or.inl (Or.inl (delete_mem_map_delete_iff.mpr ?_))
      exact List.mem_filter.mpr ⟨hmk, by simpa using hng⟩
  have hcreate : ∀ n t, RosterOp.create n t ∈ transcribeOps ghRepos k8sRepos ↔
      (ghRepos.lookup n = some t ∧
        n ∉ (k8sRepos.filter (fun r => strStartsWith r.repoSource "github:")).map
          (fun r => r.name)) := by
    intro n t
    simp only [transcribeOps, List.mem_append]
    constructor
    · rintro ((hA | hB) | hC)
      · exact absurd hA (by simp)
      · obtain ⟨hm, hla⟩ := mem_create_seg_iff.mp hB
        have h2 := List.mem_filter.mp hm
        refine ⟨hla, ?_⟩
        simpa using h2.2
      · exact absurd hC (by simp [patchOpFor_eq_some])
    · rintro ⟨hla, hnk⟩
      refine Or.inl (Or.inr (mem_create_seg_iff.mpr ⟨?_, hla⟩))
      refine List.mem_filter.mpr ⟨?_, by simpa using hnk⟩
      exact List.mem_map.mpr ⟨(n, t), lookup_eq_some_mem hla, rfl⟩
  have hpatch : ∀ n t, RosterOp.patchLastModified n t ∈ transcribeOps ghRepos k8sRepos ↔
      (ghRepos.lookup n = some t ∧
        ∃ r ∈ k8sRepos.filter (fun x => strStartsWith x.repoSource "github:"),
          r.name = n ∧ r.lastModified ≠ some t) := by
    intro n t
    simp only [transcribeOps, List.mem_append]
    constructor
    · rintro ((hA | hB) | hC)
      · exact absurd hA (by simp)
      · exact absurd hB (by simp [Option.map_eq_some'])
      · obtain ⟨hm, r, hl, hf, hne⟩ := mem_patch_seg_iff.mp hC
        refine ⟨hl, r, List.mem_of_find?_eq_some hf, ?_, hne⟩
        have := List.find?_some hf
        simpa using this
    · rintro ⟨hla, r, hrmem, hrname, hrne⟩
      refine Or.inr (mem_patch_seg_iff.mpr ⟨?_, r, hla, ?_, hrne⟩)
      · refine List.mem_filter.mpr ⟨?_, ?_⟩
        · exact List.mem_map.mpr ⟨(n, t), lookup_eq_some_mem hla, rfl⟩
        · have : n ∈ (k8sRepos.filter
              (fun x => strStartsWith x.repoSource "github:")).map (fun r => r.name) :=
            List.mem_map.mpr ⟨r, hrmem, hrname⟩
          simpa using this
      · have := find_name_eq_some_of_mem_nodup hk8s hrmem
        rwa [hrname] at this
  refine ⟨hdel, hcreate, hpatch, ?_⟩
  rintro n t hla ⟨r, hrmem, hrname, hrlast⟩ op hop heq
  cases op with
  | delete m =>
    simp only [rosterOpName] at heq
    subst heq
    have h := (hdel m).mp hop
    exact h.2 (List.mem_map.mpr ⟨(m, t), lookup_eq_some_mem hla, rfl⟩)
  | create m t' =>
    simp only [rosterOpName] at heq
    subst heq
    have h := (hcreate m t').mp hop
    exact h.2 (List.mem_map.mpr ⟨r, hrmem, hrname⟩)
  | patchLastModified m t' =>
    simp only [rosterOpName] at heq
    subst heq
    have h := (hpatch m t').mp hop
    obtain ⟨hla', r', hr'mem, hr'name, hr'ne⟩ := h
    have htt : t' = t := by
      rw [hla] at hla'
      exact (Option.some.inj hla').symm
    subst htt
    have hrr : r' = r :=
      List.inj_on_of_nodup_map hk8s hr'mem hrmem (by rw [hr'name, hrname])
    rw [hrr] at hr'ne
    exact hr'ne hrlast

/-! ## Tree-reconciliation lemmas (claims C6, C7, C10) -/

theorem s3Key_inj {pre p q : FPath} (h : s3Key pre p = s3Key pre q) : p = q := by
  unfold s3Key at h
  have hd : ((pre ++ "/") ++ p).data = ((pre ++ "/") ++ q).data := by
    rw [show (pre ++ "/") ++ p = pre ++ "/" ++ p from rfl,
      show (pre ++ "/") ++ q = pre ++ "/" ++ q from rfl, h]
  simp only [String.data_append] at hd
  exact String.ext (List.append_cancel_left hd)

theorem lookup_append {β : Type} (l₁ l₂ : List (String × β)) (k : String) :
    (l₁ ++ l₂).lookup k =
      match l₁.lookup k with
      | some v => some v
      | none => l₂.lookup k := by
  induction l₁ with
  | nil => simp [List.lookup]
  | cons e t ih =>
    obtain ⟨a, b⟩ := e
    by_cases hk : k = a
    · subst hk
      simp [lookup_cons_self]
    · rw [List.cons_append, lookup_cons_ne hk, lookup_cons_ne hk, ih]

theorem lookup_storePut_self (st : S3Objects) (k : String) (c : Content) :
    (storePut st k c).lookup k = some c := by
  unfold storePut
  split
  · rename_i hs
    induction st with
    | nil => simp [List.lookup] at hs
    | cons e t ih =>
      obtain ⟨a, b⟩ := e
      by_cases hk : k = a
      · subst hk
        simp only [List.map_cons, if_pos rfl]
        exact lookup_cons_self
      · rw [lookup_cons_ne hk] at hs
        have hne : a ≠ k := fun h => hk h.symm
        simp only [List.map_cons, if_neg hne]
        rw [lookup_cons_ne hk]
        exact ih hs
  · rename_i hs
    rw [lookup_append]
    have hnone : st.lookup k = none := by
      cases h : st.lookup k with
      | none => rfl
      | some v => rw [h] at hs; simp at hs
    rw [hnone]
    exact lookup_cons_self

theorem lookup_map_overwrite_ne {t : S3Objects} {k k' : String} {c : Content}
    (h : k' ≠ k) :
    (t.map (fun e => if e.1 = k then (k, c) else e)).lookup k' = t.lookup k' := by
  induction t with
  | nil => rfl
  | cons e t ih =>
    obtain ⟨a, b⟩ := e
    simp only [List.map_cons]
    by_cases hak : a = k
    · subst hak
      rw [show (if (a, b).1 = a then (a, c) else (a, b)) = (a, c) from by simp]
      rw [lookup_cons_ne h, lookup_cons_ne h]
      exact ih
    · rw [show (if (a, b).1 = k then (k, c) else (a, b)) = (a, b) from by simp [hak]]
      by_cases hka : k' = a
      · subst hka
        rw [lookup_cons_self, lookup_cons_self]
      · rw [lookup_cons_ne hka, lookup_cons_ne hka]
        exact ih

theorem lookup_storePut_ne (st : S3Objects) {k k' : String} (c : Content)
    (h : k' ≠ k) : (storePut st k c).lookup k' = st.lookup k' := by
  unfold storePut
  split
  · exact lookup_map_overwrite_ne h
  · rw [lookup_append]
    cases hl : st.lookup k' with
    | some v => rfl
    | none => exact lookup_cons_ne h

theorem lookup_filter_not_contains (l : S3Objects) (ks : List String) (k : String) :
    (l.filter (fun e => !ks.contains e.1)).lookup k =
      if ks.contains k = true then none else l.lookup k := by
  induction l with
  | nil => simp [List.lookup]
  | cons e t ih =>
    obtain ⟨a, b⟩ := e
    simp only [List.filter_cons]
    by_cases hks : ks.contains a = true
    · have haks : a ∈ ks := List.mem_of_elem_eq_true hks
      rw [if_neg (by simpa using haks)]
      by_cases hka : k = a
      · subst hka
        rw [ih, if_pos hks, if_pos hks]
      · rw [ih, lookup_cons_ne hka]
    · have hnaks : a ∉ ks := fun hm => hks (List.elem_eq_true_of_mem hm)
      rw [if_pos (by simpa using hnaks)]
      by_cases hka : k = a
      · subst hka
        rw [lookup_cons_self, if_neg hks, lookup_cons_self]
      · rw [lookup_cons_ne hka, ih, lookup_cons_ne hka]

theorem find_key_eq_some_of_mem_nodup {l : S3Objects} {k : String} {c : Content}
    (hnd : (l.map Prod.fst).Nodup) (hm : (k, c) ∈ l) :
    l.find? (fun f => f.1 = k) = some (k, c) := by
  induction l with
  | nil => simp at hm
  | cons e t ih =>
    simp only [List.map_cons, List.nodup_cons] at hnd
    rcases List.mem_cons.mp hm with hh | ht
    · subst hh
      simp [List.find?]
    · have hne : e.1 ≠ k := by
        intro he
        exact hnd.1 (he ▸ List.mem_map.mpr ⟨(k, c), ht, rfl⟩)
      rw [List.find?, decide_eq_false hne]
      exact ih hnd.2 ht

theorem isLocalFile_of_isSome_not_dir {lt : LocalTree} {p : FPath}
    (hs : (lt.lookup p).isSome) (hd : isLocalDir lt p = false) :
    isLocalFile lt p = true := by
  unfold isLocalFile
  unfold isLocalDir at hd
  cases hl : lt.lookup p with
  | none => rw [hl] at hs; simp at hs
  | some e =>
    cases e with
    | file c => rfl
    | dir => rw [hl] at hd; simp at hd

theorem localContent_of_file {lt : LocalTree} {p : FPath} {c : Content}
    (h : lt.lookup p = some (.file c)) : localContent lt p = c := by
  unfold localContent
  rw [h]

theorem isLocalFile_of_file {lt : LocalTree} {p : FPath} {c : Content}
    (h : lt.lookup p = some (.file c)) : isLocalFile lt p = true := by
  unfold isLocalFile
  rw [h]

theorem isLocalDir_of_file {lt : LocalTree} {p : FPath} {c : Content}
    (h : lt.lookup p = some (.file c)) : isLocalDir lt p = false := by
  unfold isLocalDir
  rw [h]

theorem match_file_some_elim {lt : LocalTree} {s3c : S3Objects} {pre p : FPath}
    {f : String × Content} (h : match_file lt s3c pre p = some f) :
    isLocalFile lt p = true ∧ f ∈ s3c ∧ f.1 = s3Key pre p := by
  unfold match_file at h
  by_cases hf : isLocalFile lt p = true
  · rw [if_pos hf] at h
    refine ⟨hf, List.mem_of_find?_eq_some h, ?_⟩
    have := List.find?_some h
    simpa using this
  · rw [if_neg hf] at h
    cases h

theorem match_file_none_find {lt : LocalTree} {s3c : S3Objects} {pre p : FPath}
    (h : match_file lt s3c pre p = none) (hf : isLocalFile lt p = true) :
    ∀ e ∈ s3c, e.1 ≠ s3Key pre p := by
  unfold match_file at h
  rw [if_pos hf] at h
  intro e he
  have := List.find?_eq_none.mp h e he
  simpa using this

theorem match_file_of_mem_nodup {lt : LocalTree} {s3c : S3Objects} {pre p : FPath}
    {c : Content} (hnd : (s3c.map Prod.fst).Nodup) (hf : isLocalFile lt p = true)
    (hm : (s3Key pre p, c) ∈ s3c) :
    match_file lt s3c pre p = some (s3Key pre p, c) := by
  unfold match_file
  rw [if_pos hf]
  exact find_key_eq_some_of_mem_nodup hnd hm

theorem processPath_match_some_eq {lt : LocalTree} {pre : String} {st : SyncState}
    {p : FPath} {f : String × Content}
    (hmf : match_file lt st.s3C pre p = some f) (heq : localContent lt p = f.2) :
    processPath lt pre st p = { st with s3C := st.s3C.erase f } := by
  unfold processPath
  rw [hmf]
  simp [heq]

theorem processPath_match_some_ne {lt : LocalTree} {pre : String} {st : SyncState}
    {p : FPath} {f : String × Content}
    (hmf : match_file lt st.s3C pre p = some f) (hne : localContent lt p ≠ f.2) :
    processPath lt pre st p =
      { s3C := st.s3C.erase f,
        store := storePut st.store (s3Key pre p) (localContent lt p),
        addedFiles := st.addedFiles,
        updatedFiles := st.updatedFiles ++ [s3Key pre p] } := by
  unfold processPath
  rw [hmf]
  simp [hne]

theorem processPath_match_none_file {lt : LocalTree} {pre : String} {st : SyncState}
    {p : FPath} (hmf : match_file lt st.s3C pre p = none)
    (hd : isLocalDir lt p = false) :
    processPath lt pre st p =
      { st with
        store := storePut st.store (s3Key pre p) (localContent lt p),
        addedFiles := st.addedFiles ++ [s3Key pre p] } := by
  unfold processPath
  rw [hmf]
  simp [hd]

theorem processPath_match_none_dir {lt : LocalTree} {pre : String} {st : SyncState}
    {p : FPath} (hmf : match_file lt st.s3C pre p = none)
    (hd : isLocalDir lt p = true) :
    processPath lt pre st p = st := by
  unfold processPath
  rw [hmf]
  simp [hd]

theorem processAll_s3C_shrinks {lt : LocalTree} {pre : String} {e : String × Content} :
    ∀ {ps : List FPath} {st : SyncState},
      e ∈ (processAll lt pre st ps).s3C → e ∈ st.s3C := by
  intro ps
  induction ps with
  | nil => intro st h; exact h
  | cons p rest ih =>
    intro st h
    have h' := ih h
    cases hmf : match_file lt st.s3C pre p with
    | some f =>
      by_cases heq : localContent lt p = f.2
      · rw [processPath_match_some_eq hmf heq] at h'
        exact List.mem_of_mem_erase h'
      · rw [processPath_match_some_ne hmf heq] at h'
        exact List.mem_of_mem_erase h'
    | none =>
      cases hd : isLocalDir lt p with
      | false => rw [processPath_match_none_file hmf hd] at h'; exact h'
      | true => rw [processPath_match_none_dir hmf hd] at h'; exact h'

theorem processAll_s3C_nodup {lt : LocalTree} {pre : String} :
    ∀ {ps : List FPath} {st : SyncState},
      ((st.s3C).map Prod.fst).Nodup →
      (((processAll lt pre st ps).s3C).map Prod.fst).Nodup := by
  intro ps
  induction ps with
  | nil => intro st h; exact h
  | cons p rest ih =>
    intro st h
    have hstep : (((processPath lt pre st p).s3C).map Prod.fst).Nodup := by
      cases hmf : match_file lt st.s3C pre p with
      | some f =>
        have herase : (((st.s3C.erase f)).map Prod.fst).Nodup :=
          ((List.erase_sublist f st.s3C).map Prod.fst).nodup h
        by_cases heq : localContent lt p = f.2
        · rw [processPath_match_some_eq hmf heq]
          exact herase
        · rw [processPath_match_some_ne hmf heq]
          exact herase
      | none =>
        cases hd : isLocalDir lt p with
        | false => rw [processPath_match_none_file hmf hd]; exact h
        | true => rw [processPath_match_none_dir hmf hd]; exact h
    exact ih hstep

theorem processAll_store_untouched {lt : LocalTree} {pre : String} {k : String} :
    ∀ {ps : List FPath} {st : SyncState},
      (∀ p ∈ ps, (lt.lookup p).isSome) →
      (∀ p ∈ ps, isLocalFile lt p = true → k ≠ s3Key pre p) →
      (processAll lt pre st ps).store.lookup k = st.store.lookup k := by
  intro ps
  induction ps with
  | nil => intro st _ _; rfl
  | cons p rest ih =>
    intro st hks hk
    have hrest := @ih (processPath lt pre st p)
      (fun q hq => hks q (List.mem_cons_of_mem _ hq))
      (fun q hq => hk q (List.mem_cons_of_mem _ hq))
    rw [show processAll lt pre st (p :: rest)
        = processAll lt pre (processPath lt pre st p) rest from rfl, hrest]
    cases hmf : match_file lt st.s3C pre p with
    | some f =>
      have hfile := (match_file_some_elim hmf).1
      have hkp := hk p (List.mem_cons_self _ _) hfile
      by_cases heq : localContent lt p = f.2
      · rw [processPath_match_some_eq hmf heq]
      · rw [processPath_match_some_ne hmf heq]
        exact lookup_storePut_ne _ _ hkp
    | none =>
      cases hd : isLocalDir lt p with
      | false =>
        have hfile := isLocalFile_of_isSome_not_dir
          (hks p (List.mem_cons_self _ _)) hd
        have hkp := hk p (List.mem_cons_self _ _) hfile
        rw [processPath_match_none_file hmf hd]
        exact lookup_storePut_ne _ _ hkp
      | true => rw [processPath_match_none_dir hmf hd]

theorem processAll_s3C_mem_iff {lt : LocalTree} {pre : String} {e : String × Content} :
    ∀ {ps : List FPath} {st : SyncState},
      (∀ p ∈ ps, isLocalFile lt p = true → e.1 ≠ s3Key pre p) →
      (e ∈ (processAll lt pre st ps).s3C ↔ e ∈ st.s3C) := by
  intro ps
  induction ps with
  | nil => intro st _; exact Iff.rfl
  | cons p rest ih =>
    intro st hk
    have hrest := @ih (processPath lt pre st p)
      (fun q hq => hk q (List.mem_cons_of_mem _ hq))
    rw [show processAll lt pre st (p :: rest)
        = processAll lt pre (processPath lt pre st p) rest from rfl, hrest]
    cases hmf : match_file lt st.s3C pre p with
    | some f =>
      obtain ⟨hfile, _, hf1⟩ := match_file_some_elim hmf
      have hef : e ≠ f := by
        intro he
        exact hk p (List.mem_cons_self _ _) hfile (he ▸ hf1)
      by_cases heq : localContent lt p = f.2
      · rw [processPath_match_some_eq hmf heq]
        exact List.mem_erase_of_ne hef
      · rw [processPath_match_some_ne hmf heq]
        exact List.mem_erase_of_ne hef
    | none =>
      cases hd : isLocalDir lt p with
      | false => rw [processPath_match_none_file hmf hd]
      | true => rw [processPath_match_none_dir hmf hd]

theorem processAll_added_sources {lt : LocalTree} {pre : String} {k : String} :
    ∀ {ps : List FPath} {st : SyncState},
      k ∈ (processAll lt pre st ps).addedFiles →
      k ∈ st.addedFiles ∨
        ∃ p ∈ ps, k = s3Key pre p ∧ isLocalDir lt p = false := by
  intro ps
  induction ps with
  | nil => intro st h; exact Or.inl h
  | cons p rest ih =>
    intro st h
    rcases ih h with hst | ⟨q, hq, hkq, hdq⟩
    · cases hmf : match_file lt st.s3C pre p with
      | some f =>
        by_cases heq : localContent lt p = f.2
        · rw [processPath_match_some_eq hmf heq] at hst
          exact Or.inl hst
        · rw [processPath_match_some_ne hmf heq] at hst
          exact Or.inl hst
      | none =>
        cases hd : isLocalDir lt p with
        | false =>
          rw [processPath_match_none_file hmf hd] at hst
          rcases List.mem_append.mp hst with hst | hst
          · exact Or.inl hst
          · refine Or.inr ⟨p, List.mem_cons_self _ _, ?_, hd⟩
            simpa using hst
        | true =>
          rw [processPath_match_none_dir hmf hd] at hst
          exact Or.inl hst
    · exact Or.inr ⟨q, List.mem_cons_of_mem _ hq, hkq, hdq⟩

theorem processAll_updated_sources {lt : LocalTree} {pre : String} {k : String} :
    ∀ {ps : List FPath} {st : SyncState},
      k ∈ (processAll lt pre st ps).updatedFiles →
      k ∈ st.updatedFiles ∨
        ∃ p ∈ ps, k = s3Key pre p ∧ isLocalFile lt p = true := by
  intro ps
  induction ps with
  | nil => intro st h; exact Or.inl h
  | cons p rest ih =>
    intro st h
    rcases ih h with hst | ⟨q, hq, hkq, hdq⟩
    · cases hmf : match_file lt st.s3C pre p with
      | some f =>
        by_cases heq : localContent lt p = f.2
        · rw [processPath_match_some_eq hmf heq] at hst
          exact Or.inl hst
        · rw [processPath_match_some_ne hmf heq] at hst
          rcases List.mem_append.mp hst with hst | hst
          · exact Or.inl hst
          · refine Or.inr ⟨p, List.mem_cons_self _ _, ?_,
              (match_file_some_elim hmf).1⟩
            simpa using hst
      | none =>
        cases hd : isLocalDir lt p with
        | false =>
          rw [processPath_match_none_file hmf hd] at hst
          exact Or.inl hst
        | true =>
          rw [processPath_match_none_dir hmf hd] at hst
          exact Or.inl hst
    · exact Or.inr ⟨q, List.mem_cons_of_mem _ hq, hkq, hdq⟩

/-- Invariant of the reconciliation loop: the scoped listing has distinct
keys and each of its entries still matches the bucket's content at its key. -/
def SyncInv (st : SyncState) : Prop :=
  ((st.s3C).map Prod.fst).Nodup ∧
  ∀ e ∈ st.s3C, st.store.lookup e.1 = some e.2

theorem processPath_syncInv {lt : LocalTree} {pre : String} {st : SyncState}
    {p : FPath} (hinv : SyncInv st) (hps : (lt.lookup p).isSome) :
    SyncInv (processPath lt pre st p) := by
  obtain ⟨hnd, hag⟩ := hinv
  have hl : st.s3C.Nodup := List.Nodup.of_map _ hnd
  cases hmf : match_file lt st.s3C pre p with
  | some f =>
    obtain ⟨hfile, hfmem, hf1⟩ := match_file_some_elim hmf
    have hndE : ((st.s3C.erase f).map Prod.fst).Nodup :=
      ((List.erase_sublist f st.s3C).map Prod.fst).nodup hnd
    have hkeyE : ∀ e ∈ st.s3C.erase f, e.1 ≠ s3Key pre p := by
      intro e he hek
      have hm := (List.Nodup.mem_erase_iff hl).mp he
      have hef : e = f :=
        List.inj_on_of_nodup_map hnd hm.2 hfmem (by rw [hek, hf1])
      exact hm.1 hef
    by_cases heq : localContent lt p = f.2
    · rw [processPath_match_some_eq hmf heq]
      refine ⟨hndE, ?_⟩
      intro e he
      exact hag e (List.mem_of_mem_erase he)
    · rw [processPath_match_some_ne hmf heq]
      refine ⟨hndE, ?_⟩
      intro e he
      rw [lookup_storePut_ne _ _ (hkeyE e he)]
      exact hag e (List.mem_of_mem_erase he)
  | none =>
    cases hd : isLocalDir lt p with
    | false =>
      have hfile := isLocalFile_of_isSome_not_dir hps hd
      have hkey : ∀ e ∈ st.s3C, e.1 ≠ s3Key pre p := match_file_none_find hmf hfile
      rw [processPath_match_none_file hmf hd]
      refine ⟨hnd, ?_⟩
      intro e he
      rw [lookup_storePut_ne _ _ (hkey e he)]
      exact hag e he
    | true =>
      rw [processPath_match_none_dir hmf hd]
      exact ⟨hnd, hag⟩

theorem processAll_syncInv {lt : LocalTree} {pre : String} :
    ∀ {ps : List FPath} {st : SyncState},
      SyncInv st → (∀ p ∈ ps, (lt.lookup p).isSome) →
      SyncInv (processAll lt pre st ps) := by
  intro ps
  induction ps with
  | nil => intro st h _; exact h
  | cons p rest ih =>
    intro st hinv hks
    exact ih (processPath_syncInv hinv (hks p (List.mem_cons_self _ _)))
      (fun q hq => hks q (List.mem_cons_of_mem _ hq))

theorem processAll_matched_key_removed {lt : LocalTree} {pre : String} {p : FPath} :
    ∀ {ps : List FPath} {st : SyncState},
      SyncInv st → (∀ q ∈ ps, (lt.lookup q).isSome) →
      p ∈ ps → isLocalFile lt p = true →
      s3Key pre p ∉ ((processAll lt pre st ps).s3C).map Prod.fst := by
  intro ps
  induction ps with
  | nil => intro st _ _ hp _; simp at hp
  | cons q rest ih =>
    intro st hinv hks hp hfile
    rcases List.mem_cons.mp hp with hqp | hp'
    · subst hqp
      have habsent : s3Key pre p ∉ ((processPath lt pre st p).s3C).map Prod.fst := by
        cases hmf : match_file lt st.s3C pre p with
        | some f =>
          obtain ⟨_, hfmem, hf1⟩ := match_file_some_elim hmf
          have hl : st.s3C.Nodup := List.Nodup.of_map _ hinv.1
          have hgoal : ∀ e ∈ st.s3C.erase f, e.1 ≠ s3Key pre p := by
            intro e he hek
            have hm := (List.Nodup.mem_erase_iff hl).mp he
            have hef : e = f :=
              List.inj_on_of_nodup_map hinv.1 hm.2 hfmem (by rw [hek, hf1])
            exact hm.1 hef
          by_cases heq : localContent lt p = f.2
          · rw [processPath_match_some_eq hmf heq]
            intro hmem
            obtain ⟨e, he, hek⟩ := List.mem_map.mp hmem
            exact hgoal e he hek
          · rw [processPath_match_some_ne hmf heq]
            intro hmem
            obtain ⟨e, he, hek⟩ := List.mem_map.mp hmem
            exact hgoal e he hek
        | none =>
          have hkey := match_file_none_find hmf hfile
          cases hd : isLocalDir lt p with
          | false =>
            rw [processPath_match_none_file hmf hd]
            intro hmem
            obtain ⟨e, he, hek⟩ := List.mem_map.mp hmem
            exact hkey e he hek
          | true =>
            rw [processPath_match_none_dir hmf hd]
            intro hmem
            obtain ⟨e, he, hek⟩ := List.mem_map.mp hmem
            exact hkey e he hek
      intro hmem
      obtain ⟨e, he, hek⟩ := List.mem_map.mp hmem
      have he'' : e ∈ (processAll lt pre (processPath lt pre st p) rest).s3C := he
      have he' := processAll_s3C_shrinks he''
      exact habsent (List.mem_map.mpr ⟨e, he', hek⟩)
    · exact ih (processPath_syncInv hinv (hks q (List.mem_cons_self _ _)))
        (fun r hr => hks r (List.mem_cons_of_mem _ hr)) hp' hfile

theorem processAll_store_value {lt : LocalTree} {pre : String} {p : FPath}
    {c : Content} :
    ∀ {ps : List FPath} {st : SyncState},
      SyncInv st → (∀ q ∈ ps, (lt.lookup q).isSome) → ps.Nodup →
      p ∈ ps → lt.lookup p = some (.file c) →
      (processAll lt pre st ps).store.lookup (s3Key pre p) = some c := by
  intro ps
  induction ps with
  | nil => intro st _ _ _ hp _; simp at hp
  | cons q rest ih =>
    intro st hinv hks hndps hp hfile
    have hfile' := isLocalFile_of_file hfile
    have hlc := localContent_of_file hfile
    rcases List.mem_cons.mp hp with hqp | hp'
    · subst hqp
      have hnotrest : p ∉ rest := (List.nodup_cons.mp hndps).1
      have hstep : (processPath lt pre st p).store.lookup (s3Key pre p) = some c := by
        cases hmf : match_file lt st.s3C pre p with
        | some f =>
          obtain ⟨_, hfmem, hf1⟩ := match_file_some_elim hmf
          by_cases heq : localContent lt p = f.2
          · rw [processPath_match_some_eq hmf heq]
            have := hinv.2 f hfmem
            rw [hf1] at this
            rw [this]
            rw [← heq, hlc]
          · rw [processPath_match_some_ne hmf heq]
            rw [lookup_storePut_self, hlc]
        | none =>
          rw [processPath_match_none_file hmf (isLocalDir_of_file hfile)]
          rw [lookup_storePut_self, hlc]
      rw [show processAll lt pre st (p :: rest)
          = processAll lt pre (processPath lt pre st p) rest from rfl]
      rw [processAll_store_untouched
        (fun r hr => hks r (List.mem_cons_of_mem _ hr))
        (fun r hr _ hkk => hnotrest (by rw [s3Key_inj hkk]; exact hr))]
      exact hstep
    · exact ih (processPath_syncInv hinv (hks q (List.mem_cons_self _ _)))
        (fun r hr => hks r (List.mem_cons_of_mem _ hr))
        (List.nodup_cons.mp hndps).2 hp' hfile

theorem processAll_equal_match_not_uploaded {lt : LocalTree} {pre : String}
    {p : FPath} {c : Content} :
    ∀ {ps : List FPath} {st : SyncState},
      ((st.s3C).map Prod.fst).Nodup → ps.Nodup →
      p ∈ ps → lt.lookup p = some (.file c) → (s3Key pre p, c) ∈ st.s3C →
      s3Key pre p ∉ st.addedFiles → s3Key pre p ∉ st.updatedFiles →
      s3Key pre p ∉ (processAll lt pre st ps).addedFiles ∧
      s3Key pre p ∉ (processAll lt pre st ps).updatedFiles := by
  intro ps
  induction ps with
  | nil =>
    intro st _ _ hp
    simp at hp
  | cons q rest ih =>
    intro st hnd hndps hp hfile hmem hna hnu
    have hfile' := isLocalFile_of_file hfile
    have hstep : ∀ st', processAll lt pre st' (q :: rest)
        = processAll lt pre (processPath lt pre st' q) rest := fun _ => rfl
    rcases List.mem_cons.mp hp with hqp | hp'
    · subst hqp
      have hmf := match_file_of_mem_nodup hnd hfile' hmem
      have heq : localContent lt p = (s3Key pre p, c).2 := by
        rw [localContent_of_file hfile]
      rw [hstep, processPath_match_some_eq hmf heq]
      have hnotrest : p ∉ rest := (List.nodup_cons.mp hndps).1
      constructor
      · intro hmemA
        rcases processAll_added_sources hmemA with hst | ⟨r, hr, hkr, _⟩
        · exact hna hst
        · exact hnotrest (by rw [s3Key_inj hkr]; exact hr)
      · intro hmemU
        rcases processAll_updated_sources hmemU with hst | ⟨r, hr, hkr, _⟩
        · exact hnu hst
        · exact hnotrest (by rw [s3Key_inj hkr]; exact hr)
    · have hqnep : q ≠ p := fun h => (List.nodup_cons.mp hndps).1 (h ▸ hp')
      have hkpq : s3Key pre p ≠ s3Key pre q := fun h => hqnep (s3Key_inj h).symm
      have hrestnd := (List.nodup_cons.mp hndps).2
      rw [hstep]
      cases hmf : match_file lt st.s3C pre q with
      | some f =>
        obtain ⟨hfq, hfmem, hf1⟩ := match_file_some_elim hmf
        have hkne : (s3Key pre p, c) ≠ f := by
          intro h
          apply hkpq
          rw [← hf1, ← h]
        have hndE : ((st.s3C.erase f).map Prod.fst).Nodup :=
          ((List.erase_sublist f st.s3C).map Prod.fst).nodup hnd
        have hmemE : (s3Key pre p, c) ∈ st.s3C.erase f :=
          (List.mem_erase_of_ne hkne).mpr hmem
        by_cases heq2 : localContent lt q = f.2
        · rw [processPath_match_some_eq hmf heq2]
          exact ih hndE hrestnd hp' hfile hmemE hna hnu
        · rw [processPath_match_some_ne hmf heq2]
          refine ih hndE hrestnd hp' hfile hmemE hna ?_
          intro hmemU
          rcases List.mem_append.mp hmemU with h | h
          · exact hnu h
          · exact hkpq (by simpa using h)
      | none =>
        cases hd : isLocalDir lt q with
        | false =>
          rw [processPath_match_none_file hmf hd]
          refine ih hnd hrestnd hp' hfile hmem ?_ hnu
          intro hmemA
          rcases List.mem_append.mp hmemA with h | h
          · exact hna h
          · exact hkpq (by simpa using h)
        | true =>
          rw [processPath_match_none_dir hmf hd]
          exact ih hnd hrestnd hp' hfile hmem hna hnu

theorem get_s3_contents_sublist (pre : String) (store : S3Objects) :
    (get_s3_contents pre store).Sublist store := by
  unfold get_s3_contents
  split
  · exact (List.filter_sublist _).trans (List.filter_sublist _)
  · exact List.filter_sublist _

theorem get_s3_contents_keys_nodup {pre : String} {store : S3Objects}
    (hstore : (store.map Prod.fst).Nodup) :
    ((get_s3_contents pre store).map Prod.fst).Nodup :=
  ((get_s3_contents_sublist pre store).map Prod.fst).nodup hstore

theorem mem_get_repo_contents {lt : LocalTree} {p : FPath} :
    p ∈ get_repo_contents lt ↔ p ∈ lt.map Prod.fst ∧ strEndsWith p ".json" = true := by
  unfold get_repo_contents
  rw [List.mem_filter]

theorem get_repo_contents_isSome {lt : LocalTree} {p : FPath}
    (h : p ∈ get_repo_contents lt) : (lt.lookup p).isSome :=
  lookup_isSome_of_mem_keys (mem_get_repo_contents.mp h).1

theorem get_repo_contents_nodup {lt : LocalTree}
    (hlt : (lt.map Prod.fst).Nodup) : (get_repo_contents lt).Nodup :=
  hlt.filter _

theorem compareMain_added_eq (lt : LocalTree) (store : S3Objects) (pre : String) :
    (compareMain lt store pre).added_keys =
      (processAll lt pre ⟨get_s3_contents pre store, store, [], []⟩
        (get_repo_contents lt)).addedFiles := rfl

theorem compareMain_updated_eq (lt : LocalTree) (store : S3Objects) (pre : String) :
    (compareMain lt store pre).updated_keys =
      (processAll lt pre ⟨get_s3_contents pre store, store, [], []⟩
        (get_repo_contents lt)).updatedFiles := rfl

theorem compareMain_deleted_eq (lt : LocalTree) (store : S3Objects) (pre : String) :
    (compareMain lt store pre).deleted_keys =
      ((processAll lt pre ⟨get_s3_contents pre store, store, [], []⟩
        (get_repo_contents lt)).s3C).map Prod.fst := rfl

theorem compareMain_store_eq (lt : LocalTree) (store : S3Objects) (pre : String) :
    (compareMain lt store pre).store =
      (processAll lt pre ⟨get_s3_contents pre store, store, [], []⟩
          (get_repo_contents lt)).store.filter
        (fun e => !(((processAll lt pre ⟨get_s3_contents pre store, store, [], []⟩
            (get_repo_contents lt)).s3C).map Prod.fst).contains e.1) := rfl

theorem syncInv_init {store : S3Objects} {pre : String}
    (hstore : (store.map Prod.fst).Nodup) :
    SyncInv ⟨get_s3_contents pre store, store, [], []⟩ := by
  refine ⟨get_s3_contents_keys_nodup hstore, ?_⟩
  intro e he
  have hmem : e ∈ store := (get_s3_contents_sublist pre store).mem he
  obtain ⟨k, c⟩ := e
  exact lookup_eq_some_of_mem_nodup hstore hmem

/-! ## Claim C7 -/

/-- C7 counterexample: the local file `sub/a.json` has content `"X"`, and the
store already holds the matching object `data/sub/a.json` with the identical
content `"X"` — yet the reconciliation uploads the file and reports its key
in `added_keys`.  Reason: the prefix `"data"` contains no "/", so
`get_s3_contents` restricts the listing to keys with exactly one "/"
(comparefiles.py:45-46); the nested object is never listed, `match_file`
returns `None`, and `main` treats the file as new. -/
theorem C7_counterexample :
    (([("sub", Entry.dir), ("sub/a.json", Entry.file "X")] : LocalTree).lookup
      "sub/a.json" = some (Entry.file "X")) ∧
    (([("data/sub/a.json", "X")] : S3Objects).lookup "data/sub/a.json" = some "X") ∧
    s3Key "data" "sub/a.json" = "data/sub/a.json" ∧
    (compareMain [("sub", Entry.dir), ("sub/a.json", Entry.file "X")]
        [("data/sub/a.json", "X")] "data").added_keys = ["data/sub/a.json"] := by
  refine ⟨by decide, by decide, by decide, by decide⟩

/-- C7, amended: for every local file that has a matching store object with
byte-identical content, *provided the object's key appears in the
prefix-scoped listing computed by `get_s3_contents`* (which is automatic
whenever the prefix contains a "/"; for a slash-free prefix it additionally
requires the key to lie exactly one segment below the prefix), the
reconciliation does not upload the file: its key is reported in neither
`added_keys` nor `updated_keys`. -/
theorem C7_amended_identical_listed_object_not_uploaded
    (lt : LocalTree) (store : S3Objects) (pre : String) (p : FPath) (c : Content)
    (hlt : (lt.map Prod.fst).Nodup) (hstore : (store.map Prod.fst).Nodup)
    (hfile : lt.lookup p = some (.file c))
    (hmem : (s3Key pre p, c) ∈ get_s3_contents pre store) :
    s3Key pre p ∉ (compareMain lt store pre).added_keys ∧
    s3Key pre p ∉ (compareMain lt store pre).updated_keys := by
  rw [compareMain_added_eq, compareMain_updated_eq]
  by_cases hjson : strEndsWith p ".json" = true
  · have hp : p ∈ get_repo_contents lt :=
      mem_get_repo_contents.mpr
        ⟨mem_keys_of_lookup_isSome (by rw [hfile]; rfl), hjson⟩
    exact processAll_equal_match_not_uploaded
      (get_s3_contents_keys_nodup hstore) (get_repo_contents_nodup hlt)
      hp hfile hmem (by simp) (by simp)
  · constructor
    · intro hmemA
      rcases processAll_added_sources hmemA with hst | ⟨q, hq, hkq, _⟩
      · simp at hst
      · have hpq : p = q := s3Key_inj hkq
        exact hjson (hpq ▸ (mem_get_repo_contents.mp hq).2)
    · intro hmemU
      rcases processAll_updated_sources hmemU with hst | ⟨q, hq, hkq, _⟩
      · simp at hst
      · have hpq : p = q := s3Key_inj hkq
        exact hjson (hpq ▸ (mem_get_repo_contents.mp hq).2)

theorem C7_amended_witness :
    (([("a.json", Entry.file "A")] : LocalTree).lookup "a.json"
      = some (Entry.file "A")) ∧
    (s3Key "cat/data" "a.json", "A") ∈
      get_s3_contents "cat/data" [("cat/data/old.json", "O"), ("cat/data/a.json", "A")] ∧
    s3Key "cat/data" "a.json" ∉
      (compareMain [("a.json", Entry.file "A")]
        [("cat/data/old.json", "O"), ("cat/data/a.json", "A")] "cat/data").added_keys ∧
    s3Key "cat/data" "a.json" ∉
      (compareMain [("a.json", Entry.file "A")]
        [("cat/data/old.json", "O"), ("cat/data/a.json", "A")] "cat/data").updated_keys := by
  have h := C7_amended_identical_listed_object_not_uploaded
    [("a.json", Entry.file "A")]
    [("cat/data/old.json", "O"), ("cat/data/a.json", "A")] "cat/data" "a.json" "A"
    (by decide) (by decide) (by decide) (by decide)
  exact ⟨by decide, by decide, h.1, h.2⟩

/-! ## Claim C10 -/

/-- C10 (confirmed): the reconciliation treats as local content only paths
ending in ".json" beneath the scanned root (`get_repo_contents`,
comparefiles.py:27-34).  Consequently (1) every uploaded key — added or
updated — is `pre/p` for some local regular `.json` file `p`; (2) a local
file whose name does not end in ".json" is never uploaded; and (3) every
object of the prefix-scoped listing that is matched by none of those `.json`
paths is deleted from the store (comparefiles.py:153-155). -/
theorem C10_json_only_and_unmatched_deleted
    (lt : LocalTree) (store : S3Objects) (pre : String)
    (hlt : (lt.map Prod.fst).Nodup) (hstore : (store.map Prod.fst).Nodup) :
    (∀ k, k ∈ (compareMain lt store pre).added_keys ∨
        k ∈ (compareMain lt store pre).updated_keys →
      ∃ p, k = s3Key pre p ∧ strEndsWith p ".json" = true ∧
        isLocalFile lt p = true) ∧
    (∀ p, strEndsWith p ".json" = false →
      s3Key pre p ∉ (compareMain lt store pre).added_keys ∧
      s3Key pre p ∉ (compareMain lt store pre).updated_keys) ∧
    (∀ k c, (k, c) ∈ get_s3_contents pre store →
      (∀ p ∈ get_repo_contents lt, isLocalFile lt p = true → k ≠ s3Key pre p) →
      k ∈ (compareMain lt store pre).deleted_keys ∧
      (compareMain lt store pre).store.lookup k = none) := by
  have huploads : ∀ k, k ∈ (compareMain lt store pre).added_keys ∨
      k ∈ (compareMain lt store pre).updated_keys →
      ∃ p, k = s3Key pre p ∧ strEndsWith p ".json" = true ∧
        isLocalFile lt p = true := by
    intro k hk
    rcases hk with hk | hk
    · rw [compareMain_added_eq] at hk
      rcases processAll_added_sources hk with hst | ⟨q, hq, hkq, hdq⟩
      · simp at hst
      · refine ⟨q, hkq, (mem_get_repo_contents.mp hq).2, ?_⟩
        exact isLocalFile_of_isSome_not_dir (get_repo_contents_isSome hq) hdq
    · rw [compareMain_updated_eq] at hk
      rcases processAll_updated_sources hk with hst | ⟨q, hq, hkq, hfq⟩
      · simp at hst
      · exact ⟨q, hkq, (mem_get_repo_contents.mp hq).2, hfq⟩
  refine ⟨huploads, ?_, ?_⟩
  · intro p hjson
    constructor
    · intro hk
      obtain ⟨q, hkq, hjq, _⟩ := huploads _ (Or.inl hk)
      exact absurd ((s3Key_inj hkq) ▸ hjq) (by simp [hjson])
    · intro hk
      obtain ⟨q, hkq, hjq, _⟩ := huploads _ (Or.inr hk)
      exact absurd ((s3Key_inj hkq) ▸ hjq) (by simp [hjson])
  · intro k c hmem hunm
    have hfinal : (k, c) ∈ (processAll lt pre
        ⟨get_s3_contents pre store, store, [], []⟩ (get_repo_contents lt)).s3C := by
      refine (processAll_s3C_mem_iff ?_).mpr hmem
      intro p hp hf
      exact hunm p hp hf
    have hdel : k ∈ (compareMain lt store pre).deleted_keys := by
      rw [compareMain_deleted_eq]
      exact List.mem_map.mpr ⟨(k, c), hfinal, rfl⟩
    refine ⟨hdel, ?_⟩
    rw [compareMain_store_eq, lookup_filter_not_contains]
    rw [if_pos ?hc]
    case hc =>
      rw [compareMain_deleted_eq] at hdel
      exact List.elem_eq_true_of_mem hdel

theorem C10_json_only_and_unmatched_deleted_witness :
    ("pre" ++ "/" ++ "gone.json") ∈
      (compareMain [("a.json", Entry.file "A"), ("b.txt", Entry.file "B"),
          ("d.json", Entry.dir)]
        [("pre/a.json", "OLD"), ("pre/gone.json", "G"), ("pre/d.json", "D"),
          ("other/x.json", "X")] "pre").deleted_keys ∧
    s3Key "pre" "b.txt" ∉
      (compareMain [("a.json", Entry.file "A"), ("b.txt", Entry.file "B"),
          ("d.json", Entry.dir)]
        [("pre/a.json", "OLD"), ("pre/gone.json", "G"), ("pre/d.json", "D"),
          ("other/x.json", "X")] "pre").added_keys := by
  have h := C10_json_only_and_unmatched_deleted
    [("a.json", Entry.file "A"), ("b.txt", Entry.file "B"), ("d.json", Entry.dir)]
    [("pre/a.json", "OLD"), ("pre/gone.json", "G"), ("pre/d.json", "D"),
      ("other/x.json", "X")] "pre" (by decide) (by decide)
  refine ⟨?_, (h.2.1 "b.txt" (by decide)).1⟩
  have hdel := h.2.2 ("pre" ++ "/" ++ "gone.json") "G" (by decide) (by decide)
  exact hdel.1

/-! ## Claim C6 -/

/-- C6 counterexample: the local tree consists of the regular file `a.txt`
with content `"X"` and the store is empty.  `files(L) = {a.txt}`, so the
claim requires the store to end up with exactly the key `pre/a.txt`; but
`get_repo_contents` only enumerates ".json" paths (comparefiles.py:33), so
nothing is uploaded and the store stays empty. -/
theorem C6_counterexample :
    (([("a.txt", Entry.file "X")] : LocalTree).lookup "a.txt"
      = some (Entry.file "X")) ∧
    (compareMain [("a.txt", Entry.file "X")] [] "pre").store.lookup
      (s3Key "pre" "a.txt") = none ∧
    (compareMain [("a.txt", Entry.file "X")] [] "pre").store = [] ∧
    (compareMain [("a.txt", Entry.file "X")] [] "pre").added_keys = [] := by
  refine ⟨by decide, by decide, by decide, by decide⟩

/-- C6, amended: for every local tree, every store with distinct keys and
every prefix that contains a "/" (so that the prefix-scoped listing is not
cut down to single-segment keys), after `main` applies its plan the store's
objects under `pre/` have keys exactly
`{pre/x : x a local regular file ending in ".json"}`, each with content equal
to the corresponding local file. -/
theorem C6_amended_reconciliation_correct
    (lt : LocalTree) (store : S3Objects) (pre : String)
    (hlt : (lt.map Prod.fst).Nodup) (hstore : (store.map Prod.fst).Nodup)
    (hpre : countSlash pre ≠ 0) :
    ∀ k v, strStartsWith k (pre ++ "/") = true →
      ((compareMain lt store pre).store.lookup k = some v ↔
        ∃ p, k = s3Key pre p ∧ lt.lookup p = some (.file v) ∧
          strEndsWith p ".json" = true) := by
  intro k v hks
  have hinv₀ : SyncInv ⟨get_s3_contents pre store, store, [], []⟩ :=
    syncInv_init hstore
  have hksome : ∀ p ∈ get_repo_contents lt, (lt.lookup p).isSome :=
    fun p hp => get_repo_contents_isSome hp
  have hrcnd := get_repo_contents_nodup hlt
  have hvalue : ∀ p c, p ∈ get_repo_contents lt → lt.lookup p = some (.file c) →
      (compareMain lt store pre).store.lookup (s3Key pre p) = some c := by
    intro p c hp hfile
    rw [compareMain_store_eq, lookup_filter_not_contains]
    have hnotdel : s3Key pre p ∉ ((processAll lt pre
        ⟨get_s3_contents pre store, store, [], []⟩
        (get_repo_contents lt)).s3C).map Prod.fst :=
      processAll_matched_key_removed hinv₀ hksome hp (isLocalFile_of_file hfile)
    cases hcont : (((processAll lt pre ⟨get_s3_contents pre store, store, [], []⟩
        (get_repo_contents lt)).s3C).map Prod.fst).contains (s3Key pre p) with
    | true => exact absurd (List.mem_of_elem_eq_true hcont) hnotdel
    | false =>
      rw [if_neg (by simp [hcont])]
      exact processAll_store_value hinv₀ hksome hrcnd hp hfile
  constructor
  · intro hlk
    by_cases hmatched : ∃ p ∈ get_repo_contents lt,
        isLocalFile lt p = true ∧ k = s3Key pre p
    · obtain ⟨p, hp, hf, hkp⟩ := hmatched
      have hc : ∃ c, lt.lookup p = some (.file c) := by
        unfold isLocalFile at hf
        cases hl : lt.lookup p with
        | none => rw [hl] at hf; simp at hf
        | some e =>
          cases e with
          | file c => exact ⟨c, rfl⟩
          | dir => rw [hl] at hf; simp at hf
      obtain ⟨c, hfile⟩ := hc
      have := hvalue p c hp hfile
      rw [← hkp] at this
      rw [hlk] at this
      have hvc : v = c := Option.some.inj this
      exact ⟨p, hkp, hvc ▸ hfile, (mem_get_repo_contents.mp hp).2⟩
    · exfalso
      push_neg at hmatched
      have hunm : ∀ p ∈ get_repo_contents lt, isLocalFile lt p = true →
          k ≠ s3Key pre p := fun p hp hf => hmatched p hp hf
      cases hs : store.lookup k with
      | some w =>
        have hmem₀ : (k, w) ∈ get_s3_contents pre store := by
          unfold get_s3_contents
          rw [if_neg hpre]
          exact List.mem_filter.mpr ⟨lookup_eq_some_mem hs, by simpa using hks⟩
        have hfinal : (k, w) ∈ (processAll lt pre
            ⟨get_s3_contents pre store, store, [], []⟩
            (get_repo_contents lt)).s3C :=
          (processAll_s3C_mem_iff (fun p hp hf => hunm p hp hf)).mpr hmem₀
        have hkdel : k ∈ ((processAll lt pre
            ⟨get_s3_contents pre store, store, [], []⟩
            (get_repo_contents lt)).s3C).map Prod.fst :=
          List.mem_map.mpr ⟨(k, w), hfinal, rfl⟩
        rw [compareMain_store_eq, lookup_filter_not_contains] at hlk
        rw [if_pos (List.elem_eq_true_of_mem hkdel)] at hlk
        cases hlk
      | none =>
        rw [compareMain_store_eq, lookup_filter_not_contains] at hlk
        split at hlk
        · cases hlk
        · rw [processAll_store_untouched hksome hunm] at hlk
          rw [hs] at hlk
          cases hlk
  · rintro ⟨p, hkp, hfile, hjson⟩
    have hp : p ∈ get_repo_contents lt :=
      mem_get_repo_contents.mpr
        ⟨mem_keys_of_lookup_isSome (by rw [hfile]; rfl), hjson⟩
    rw [hkp]
    exact hvalue p v hp hfile

theorem C6_amended_witness :
    countSlash "cat/data" ≠ 0 ∧
    (compareMain [("a.json", Entry.file "A"), ("b.txt", Entry.file "B")]
        [("cat/data/old.json", "O"), ("cat/data/a.json", "A")]
        "cat/data").store.lookup (s3Key "cat/data" "a.json") = some "A" ∧
    (compareMain [("a.json", Entry.file "A"), ("b.txt", Entry.file "B")]
        [("cat/data/old.json", "O"), ("cat/data/a.json", "A")]
        "cat/data").store.lookup "cat/data/old.json" = none := by
  have h := C6_amended_reconciliation_correct
    [("a.json", Entry.file "A"), ("b.txt", Entry.file "B")]
    [("cat/data/old.json", "O"), ("cat/data/a.json", "A")] "cat/data"
    (by decide) (by decide) (by decide)
  refine ⟨by decide, ?_, ?_⟩
  · exact (h (s3Key "cat/data" "a.json") "A" (by decide)).mpr
      ⟨"a.json", rfl, by decide, by decide⟩
  · cases hlk : (compareMain [("a.json", Entry.file "A"), ("b.txt", Entry.file "B")]
        [("cat/data/old.json", "O"), ("cat/data/a.json", "A")]
        "cat/data").store.lookup "cat/data/old.json" with
    | none => rfl
    | some w =>
      obtain ⟨p, hkp, hfile, hjson⟩ :=
        (h "cat/data/old.json" w (by decide)).mp hlk
      have hsk : s3Key "cat/data" p = s3Key "cat/data" "old.json" := by
        rw [← hkp]
        decide
      have hpeq : p = "old.json" := s3Key_inj hsk
      rw [hpeq] at hfile
      have hnone : List.lookup "old.json"
          ([("a.json", Entry.file "A"), ("b.txt", Entry.file "B")] : LocalTree)
          = none := by decide
      rw [hnone] at hfile
      cases hfile

theorem C8_transcribe_ops_characterization_witness :
    transcribeOps [("A", 123456), ("B", 234567), ("C", 345678)]
        [⟨"B", "github:org:team", some 234567⟩, ⟨"C", "github:org:team", some 345677⟩,
         ⟨"D", "github:org:team", some 456789⟩, ⟨"E", "", some 456789⟩]
      = [.delete "D", .create "A" 123456, .patchLastModified "C" 345678] ∧
    ∀ op ∈ transcribeOps [("A", 123456), ("B", 234567), ("C", 345678)]
        [⟨"B", "github:org:team", some 234567⟩, ⟨"C", "github:org:team", some 345677⟩,
         ⟨"D", "github:org:team", some 456789⟩, ⟨"E", "", some 456789⟩],
      rosterOpName op ≠ "B" :=
  ⟨by decide,
    (C8_transcribe_ops_characterization
        [("A", 123456), ("B", 234567), ("C", 345678)]
        [⟨"B", "github:org:team", some 234567⟩, ⟨"C", "github:org:team", some 345677⟩,
         ⟨"D", "github:org:team", some 456789⟩, ⟨"E", "", some 456789⟩]
        (by decide) (by decide)).2.2.2 "B" 234567 (by decide)
      ⟨⟨"B", "github:org:team", some 234567⟩, by decide, rfl, rfl⟩⟩

end ConfigScanning
